import Mathlib

/-!
Verification development for the brahe directory-comparison tool.

The Go sources are shallowly embedded here:
* file contents and digests are byte lists (`Bytes`); `hashFile` is modelled as
  the identity on contents, the collision-free idealization of BLAKE2b-256
  (the program uses digest equality as its only notion of content equality);
* the filesystem is a tree value (`FSTree`); a directory listing is the list of
  `(name, entry)` pairs in listing order, matching `ioutil.ReadDir`'s output as
  consumed by the code (only `Name()` and `IsDir()` are used);
* `float64` progress arithmetic is modelled over `ℚ`, the exact-arithmetic
  idealization of the budget-splitting scheme;
* every `stats.lock.Lock() .. Unlock()` block of the Go code becomes one `Upd`
  event, every `reportMismatch` call becomes one `Report` event, and a
  traversal function produces the ordered list of these events (`List Event`);
  the states visible at each release of the stats lock are `lockStates`;
* `filepath.Join dir name` is modelled as `dir ++ "/" ++ name` (path cleaning
  is irrelevant to the claims: paths are only compared for equality and
  membership in the ignore sets).
-/

namespace Brahe

/-- File contents / digests, as byte lists. -/
abbrev Bytes := List Nat

/-- A filesystem tree: the part of `os.FileInfo` plus contents the code uses. -/
inductive FSTree where
  | file (content : Bytes)
  | dir (entries : List (String × FSTree))

/-- A directory listing, in the order returned by the directory lister. -/
abbrev Listing := List (String × FSTree)

/-- Model of `FileInfo.IsDir`. -/
def isDirE : FSTree → Bool
  | .file _ => false
  | .dir _ => true

/-- Contents of a file node (unused for directory nodes). -/
def contentOf : FSTree → Bytes
  | .file c => c
  | .dir _ => []

/-- Listing of a node; `ReadDir` is only ever applied to directories. -/
def listOf : FSTree → Listing
  | .file _ => []
  | .dir es => es

/-- Model of `hashFile` (compare.go): streams a file through BLAKE2b-256 and
returns the digest.  Digests are idealized as the content itself, which is
faithful for every claim because the code only ever compares digests for
equality and BLAKE2b-256 is collision-resistant. -/
def hashFile (content : Bytes) : Bytes := content

/-- Model of `filepath.Join` as used on one directory and one entry name. -/
def pathJoin (dir name : String) : String := dir ++ "/" ++ name

/-- The `GapOpts` pattern (brahe.go); the Go field `end` is called `stop`
here because `end` is a Lean keyword. -/
structure GapOpts where
  pre : String
  suf : String
  width : Int
  begin : Int
  stop : Int
deriving DecidableEq, Repr

/-- The configuration fields of `Config` (brahe.go) consumed by the
traversal functions modelled here. -/
structure Config where
  entries : List String
  noData : Bool
  ignoreSpecificDirs : List String
  ignoreFiles : List String
  buildDB : Bool
  checkDB : Bool
  copy : String
  gapOpts : GapOpts
deriving DecidableEq, Repr

/-- The `Stats` structure (shared progress/statistics state), with the
`copied` counter used by `useDB`. -/
structure Stats where
  progress : ℚ
  currentPath : String
  matched : Int
  mismatched : Int
  missing : Int
  ignored : Int
  copied : Int
deriving DecidableEq, Repr

/-- The all-zero stats the process starts with. -/
def Stats.init : Stats := ⟨0, "", 0, 0, 0, 0, 0⟩

/-- The effect of one `stats.lock.Lock() .. Unlock()` block: optional
current-path assignment, optional assignment of `missing` (used only by
`findGaps`), and additive deltas for the remaining fields. -/
structure Upd where
  dProgress : ℚ := 0
  setPath : Option String := none
  setMissing : Option Int := none
  dMatched : Int := 0
  dMismatched : Int := 0
  dMissing : Int := 0
  dIgnored : Int := 0
  dCopied : Int := 0
deriving DecidableEq, Repr

/-- Apply one locked update to the stats (assignments before deltas, matching
the order of statements inside the Go lock blocks). -/
def applyUpd (s : Stats) (u : Upd) : Stats :=
  { progress := s.progress + u.dProgress
    currentPath := u.setPath.getD s.currentPath
    matched := s.matched + u.dMatched
    mismatched := s.mismatched + u.dMismatched
    missing := u.setMissing.getD s.missing + u.dMissing
    ignored := s.ignored + u.dIgnored
    copied := s.copied + u.dCopied }

/-- One console report produced through `reportMismatch`/`writeToConsole`. -/
inductive Report where
  | missing (path : String)
  | expectedDir (path : String)
  | expectedFile (path : String)
  | wrongHash (path : String)
  | copiedFile (path : String)
  | gapMissing (name : String)
deriving DecidableEq, Repr

/-- An observable event of a traversal: a locked stats update or a report. -/
inductive Event where
  | upd (u : Upd)
  | report (r : Report)
deriving DecidableEq, Repr

/-- Run a trace of events over the stats. -/
def applyEvents (s : Stats) (es : List Event) : Stats :=
  es.foldl (fun s e => match e with | .upd u => applyUpd s u | .report _ => s) s

/-- The sequence of stats states visible at each release of the stats lock. -/
def lockStates (s : Stats) : List Event → List Stats
  | [] => []
  | .report _ :: es => lockStates s es
  | .upd u :: es => applyUpd s u :: lockStates (applyUpd s u) es

/-- Model of `splitProgressValue` (compare.go): split a budget over `parts`
entries, returning the per-entry chunk and the leftover. -/
def splitProgressValue (value : ℚ) (parts : Nat) : ℚ × ℚ :=
  let chunk : ℚ := if parts > 0 then value / parts else 0
  (chunk, value - chunk * parts)

/-- Outcome of searching one target listing for a source entry's name
(the inner `k` loop of `compareDir`): the first entry carrying the name
decides, matching the `break`. -/
inductive SearchOutcome where
  | missing
  | typeMismatch
  | matched (sub : FSTree)

/-- Go's inner search loop: the first entry of the listing carrying `name`
(the loop breaks at that entry whatever its kind). -/
def findNamed (name : String) : Listing → Option (String × FSTree)
  | [] => none
  | (n, te) :: rest => if n == name then some (n, te) else findNamed name rest

/-- The inner `k` loop of `compareDir` over one target. -/
def searchTarget (name : String) (isDir : Bool) (tgt : String × FSTree) : SearchOutcome :=
  match findNamed name (listOf tgt.2) with
  | none => .missing
  | some (_, sub) => if isDirE sub == isDir then .matched sub else .typeMismatch

/-- The whole `j` loop of `compareDir`: the outcome for each target, paired
with the searched path `filepath.Join(dirNames[j], name)`. -/
def searchOutcomes (name : String) (isDir : Bool) (tgts : List (String × FSTree)) :
    List (String × SearchOutcome) :=
  tgts.map (fun t => (pathJoin t.1 name, searchTarget name isDir t))

/-- Per-target contribution to `(deltaMatched, deltaMismatched, deltaMissing)`
before any hash comparison. -/
def outcomeDeltas : SearchOutcome → Int × Int × Int
  | .missing => (0, 0, 1)
  | .typeMismatch => (0, 1, 0)
  | .matched _ => (1, 0, 0)

/-- `deltaMatched` accumulated by the `j` loop. -/
def dMatchedOf (outs : List (String × SearchOutcome)) : Int :=
  (outs.map (fun x => (outcomeDeltas x.2).1)).sum

/-- `deltaMismatched` accumulated by the `j` loop. -/
def dMismatchedOf (outs : List (String × SearchOutcome)) : Int :=
  (outs.map (fun x => (outcomeDeltas x.2).2.1)).sum

/-- `deltaMissing` accumulated by the `j` loop. -/
def dMissingOf (outs : List (String × SearchOutcome)) : Int :=
  (outs.map (fun x => (outcomeDeltas x.2).2.2)).sum

/-- The report (if any) a single target outcome prints. -/
def outcomeReport (isDir : Bool) : String × SearchOutcome → Option Report
  | (p, .missing) => some (.missing p)
  | (p, .typeMismatch) => some (if isDir then .expectedDir p else .expectedFile p)
  | (_, .matched _) => none

/-- The report events of the `j` loop, in target order. -/
def searchReportEvents (isDir : Bool) (outs : List (String × SearchOutcome)) : List Event :=
  (outs.filterMap (outcomeReport isDir)).map Event.report

/-- The candidate set `allNames[1:]`: matched targets only, with their paths. -/
def matchedOf (outs : List (String × SearchOutcome)) : List (String × FSTree) :=
  outs.filterMap (fun x => match x.2 with
    | .matched sub => some (x.1, sub)
    | _ => none)

/-- The paths reported `WRONG HASH` by the hash loop: matched copies whose
digest differs from the source digest, in candidate order. -/
def wrongHashPaths (srcContent : Bytes) (mts : List (String × FSTree)) : List String :=
  (mts.filter (fun t => !(hashFile (contentOf t.2) == hashFile srcContent))).map (fun t => t.1)

/-- The ignore test of `compareDir`/`useDB`/`deleteDupes`:
directories by full path, files by bare name. -/
def entryIgnored (cfg : Config) (fullName name : String) (sub : FSTree) : Bool :=
  (isDirE sub && cfg.ignoreSpecificDirs.contains fullName)
    || (!isDirE sub && cfg.ignoreFiles.contains name)

/-- The `stats` lock block of the ignore branch. -/
def ignoreUpd (chunk : ℚ) : Upd := { dProgress := chunk, dIgnored := 1 }

/-- The `stats.currentPath = fullName` lock block. -/
def pathUpd (fullName : String) : Upd := { setPath := some fullName }

/-- The lock block merging a recursive call's counter deltas (no progress). -/
def mergeUpd (outs : List (String × SearchOutcome)) : Upd :=
  { dMatched := dMatchedOf outs, dMismatched := dMismatchedOf outs,
    dMissing := dMissingOf outs }

/-- The per-entry closing lock block of `compareDir`. -/
def finishUpd (chunk : ℚ) (m mm mi : Int) : Upd :=
  { dProgress := chunk, dMatched := m, dMismatched := mm, dMissing := mi }

/-- The end-of-call lock block (clear the path, flush the rounding leftover). -/
def finishCallUpd (extra : ℚ) : Upd := { setPath := some "", dProgress := extra }

/-- Whether `compareDir` descends into this source entry: a directory that at
least one target also has, with depth budget left (`depth != 0`). -/
def recurseQ (sub : FSTree) (depth : Int)
    (outs : List (String × SearchOutcome)) : Bool :=
  isDirE sub && depth != 0 && !(matchedOf outs).isEmpty

/-- Events of one non-recursing source entry after the `j` loop: the optional
hash comparison followed by the per-entry closing lock block. -/
def entryTail (cfg : Config) (chunk : ℚ) (sub : FSTree)
    (outs : List (String × SearchOutcome)) : List Event :=
  if !isDirE sub && !cfg.noData && !(matchedOf outs).isEmpty then
    (wrongHashPaths (contentOf sub) (matchedOf outs)).map (fun p => Event.report (.wrongHash p))
      ++ [Event.upd (finishUpd chunk
            (dMatchedOf outs - (wrongHashPaths (contentOf sub) (matchedOf outs)).length)
            (dMismatchedOf outs + (wrongHashPaths (contentOf sub) (matchedOf outs)).length)
            (dMissingOf outs))]
  else
    [Event.upd (finishUpd chunk (dMatchedOf outs) (dMismatchedOf outs) (dMissingOf outs))]

theorem list_sizeOf_pos {α : Type} [SizeOf α] (l : List α) : 0 < sizeOf l := by
  cases l <;> simp_arith

theorem sizeOf_listOf_lt (t : FSTree) : sizeOf (listOf t) < sizeOf t := by
  cases t with
  | file c => have := list_sizeOf_pos c; simp [listOf]; omega
  | dir es => simp [listOf]

mutual

/-- Model of `compareDir` (compare.go): `src` is `(dirNames[0], its tree)`,
`tgts` the remaining `dirNames` with their trees. -/
def cmpDir (cfg : Config) (pv : ℚ) (src : String × FSTree)
    (tgts : List (String × FSTree)) (depth : Int) : List Event :=
  have := sizeOf_listOf_lt src.2
  cmpEntries cfg (splitProgressValue pv (listOf src.2).length).1 src.1
      (listOf src.2) tgts depth
    ++ [Event.upd (finishCallUpd (splitProgressValue pv (listOf src.2).length).2)]
termination_by sizeOf src.2

/-- The `i` loop of `compareDir` over the source listing. -/
def cmpEntries (cfg : Config) (chunk : ℚ) (srcPath : String)
    (entries : Listing) (tgts : List (String × FSTree)) (depth : Int) : List Event :=
  match entries with
  | [] => []
  | (name, sub) :: rest =>
    (if entryIgnored cfg (pathJoin srcPath name) name sub then
      [Event.upd (ignoreUpd chunk)]
     else if recurseQ sub depth (searchOutcomes name (isDirE sub) tgts) then
      Event.upd (pathUpd (pathJoin srcPath name))
        :: searchReportEvents (isDirE sub) (searchOutcomes name (isDirE sub) tgts)
        ++ cmpDir cfg chunk (pathJoin srcPath name, sub)
             (matchedOf (searchOutcomes name (isDirE sub) tgts)) (depth - 1)
        ++ [Event.upd (mergeUpd (searchOutcomes name (isDirE sub) tgts))]
     else
      Event.upd (pathUpd (pathJoin srcPath name))
        :: searchReportEvents (isDirE sub) (searchOutcomes name (isDirE sub) tgts)
        ++ entryTail cfg chunk sub (searchOutcomes name (isDirE sub) tgts))
    ++ cmpEntries cfg chunk srcPath rest tgts depth
termination_by sizeOf entries

end

/-! ## The hash database (compare.go: `ensureDBEntry`, `hasDBEntry`) -/

/-- Model of Go's `strings.Split(s, "\n")` on the character sequence of the
file: the (possibly empty) segments between newline characters. -/
def splitLines : List Char → List (List Char)
  | [] => [[]]
  | c :: rest =>
    if c = '\n' then [] :: splitLines rest
    else
      match splitLines rest with
      | l :: ls => (c :: l) :: ls
      | [] => [[c]]

/-- One lowercase hex digit, as printed by `fmt.Sprintf("%x", ...)`. -/
def hexDigitChar (n : Nat) : Char :=
  if n < 10 then Char.ofNat (48 + n) else Char.ofNat (87 + n)

/-- The two hex digits of one byte. -/
def hexByte (b : Nat) : List Char := [hexDigitChar (b / 16 % 16), hexDigitChar (b % 16)]

/-- `fmt.Sprintf("%x", hash)`: lowercase hex of the digest bytes. -/
def bytesHex (bs : Bytes) : List Char := (bs.map hexByte).flatten

/-- Association-list lookup (first match), the model of a file lookup. -/
def lookupKV {K V : Type} [DecidableEq K] : List (K × V) → K → Option V
  | [], _ => none
  | (k, v) :: rest, key => if k = key then some v else lookupKV rest key

/-- Association-list overwrite-or-append, the model of a file write. -/
def setKV {K V : Type} [DecidableEq K] : List (K × V) → K → V → List (K × V)
  | [], key, v => [(key, v)]
  | (k, w) :: rest, key, v => if k = key then (key, v) :: rest else (k, w) :: setKV rest key v

/-- The sharded database files: `(root, shard directory, file name)` mapped to
the file's bytes.  A missing key is an absent file (read as empty thanks to
`O_CREATE`). -/
abbrev DBFiles := List ((String × String × String) × List Char)

/-- The addressing of `ensureDBEntry`/`hasDBEntry`: shard directory = first two
hex characters of the digest, file name = the remaining hex characters. -/
def dbKey (root : String) (hash : Bytes) : String × String × String :=
  (root, String.mk ((bytesHex hash).take 2), String.mk ((bytesHex hash).drop 2))

/-- Model of `ensureDBEntry` (compare.go): read the shard file, split into
lines; if `entry` is already a line, change nothing and return `false`;
otherwise append `entry` and a newline and return `true`. -/
def ensureDBEntry (db : DBFiles) (root : String) (hash : Bytes) (entry : String) :
    DBFiles × Bool :=
  if entry.toList ∈ splitLines ((lookupKV db (dbKey root hash)).getD []) then (db, false)
  else
    (setKV db (dbKey root hash) ((lookupKV db (dbKey root hash)).getD [] ++ entry.toList ++ ['\n']),
     true)

/-- Model of `hasDBEntry` (compare.go): a pure existence check of the shard
file, independent of its contents. -/
def hasDBEntry (db : DBFiles) (root : String) (hash : Bytes) : Bool :=
  (lookupKV db (dbKey root hash)).isSome

/-! ## `copyFile` and `useDB` -/

/-- The destination filesystem seen by `copyFile`: path mapped to bytes. -/
abbrev DstFS := List (String × Bytes)

/-- Model of `copyFile` (copy.go): the destination is opened with
`O_WRONLY|O_CREATE|O_EXCL`, so the call fails — touching nothing — whenever
the destination path already exists, and otherwise writes an exact copy. -/
def copyFile (fs : DstFS) (src : Bytes) (dst : String) : Except Unit DstFS :=
  if (lookupKV fs dst).isSome then .error () else .ok (fs ++ [(dst, src)])

/-- Whether a run completed or aborted through `panic`. -/
inductive RunOut where
  | ok
  | fatal (msg : String)
deriving DecidableEq, Repr

/-- The mutable filesystem state threaded through `useDB`. -/
structure DBSt where
  db : DBFiles
  dst : DstFS
deriving DecidableEq

/-- Model of `strings.HasPrefix` over the character sequences. -/
def strHasPrefix (fullName e : String) : Bool := e.toList.isPrefixOf fullName.toList

/-- Model of the slice `fullName[len(entry):]` over the character sequences. -/
def strDropLen (fullName e : String) : String := String.mk (fullName.toList.drop e.toList.length)

/-- The prefix scan of `useDB`'s copy branch: the first configured entry that
is a prefix of `fullName` yields the relative suffix; no match leaves `""`. -/
def findSuffix (entries : List String) (fullName : String) : String :=
  match entries.find? (fun e => strHasPrefix fullName e) with
  | some e => strDropLen fullName e
  | none => ""

/-- The per-entry closing lock block of `useDB` (progress, matched, missing,
copied). -/
def useDBFinishUpd (chunk : ℚ) (ds : Int × Int × Int) : Upd :=
  { dProgress := chunk, dMatched := ds.1, dMissing := ds.2.1, dCopied := ds.2.2 }

/-- The file branch of `useDB`, between the currentPath lock and the closing
lock: report events, counter deltas `(deltaMatched, deltaMissing,
deltaCopied)`, next state, and whether the process panics. -/
def useDBFile (cfg : Config) (fullName : String) (c : Bytes) (st : DBSt) :
    List Event × (Int × Int × Int) × DBSt × RunOut :=
  if cfg.buildDB then
    match ensureDBEntry st.db (cfg.entries.getD 1 "") (hashFile c) fullName with
    | (db', true) => ([], (0, 0, 1), { st with db := db' }, .ok)
    | (db', false) => ([], (1, 0, 0), { st with db := db' }, .ok)
  else if cfg.checkDB then
    if hasDBEntry st.db (cfg.entries.headD "") (hashFile c) then
      ([], (1, 0, 0), st, .ok)
    else if cfg.copy ≠ "" then
      if findSuffix cfg.entries fullName = "" then
        ([], (0, 0, 0), st, .fatal "entry prefix")
      else
        match copyFile st.dst c (cfg.copy ++ findSuffix cfg.entries fullName) with
        | .error _ => ([], (0, 0, 0), st, .fatal "copy")
        | .ok dst' => ([Event.report (.copiedFile fullName)], (0, 0, 1), { st with dst := dst' }, .ok)
    else
      ([Event.report (.missing fullName)], (0, 1, 0), st, .ok)
  else
    ([], (0, 0, 0), st, .ok)

mutual

/-- Model of `useDB` (compare.go): single-tree walk that builds or checks the
hash database; `dir` is `(dirName, its tree)`. -/
def useDB (cfg : Config) (pv : ℚ) (dir : String × FSTree) (depth : Int) (st : DBSt) :
    List Event × DBSt × RunOut :=
  have := sizeOf_listOf_lt dir.2
  match useDBEntries cfg (splitProgressValue pv (listOf dir.2).length).1 dir.1
      (listOf dir.2) depth st with
  | (evs, st', .ok) =>
    (evs ++ [Event.upd (finishCallUpd (splitProgressValue pv (listOf dir.2).length).2)], st', .ok)
  | (evs, st', .fatal m) => (evs, st', .fatal m)
termination_by sizeOf dir.2

/-- The `i` loop of `useDB` over the listing. -/
def useDBEntries (cfg : Config) (chunk : ℚ) (dirPath : String) (entries : Listing)
    (depth : Int) (st : DBSt) : List Event × DBSt × RunOut :=
  match entries with
  | [] => ([], st, .ok)
  | (name, sub) :: rest =>
    if entryIgnored cfg (pathJoin dirPath name) name sub then
      match useDBEntries cfg chunk dirPath rest depth st with
      | (evs, st', r) => (Event.upd (ignoreUpd chunk) :: evs, st', r)
    else if isDirE sub && depth != 0 then
      match useDB cfg chunk (pathJoin dirPath name, sub) (depth - 1) st with
      | (evs, st', .ok) =>
        match useDBEntries cfg chunk dirPath rest depth st' with
        | (evs2, st2, r) =>
          (Event.upd (pathUpd (pathJoin dirPath name)) :: evs ++ evs2, st2, r)
      | (evs, st', .fatal m) =>
        (Event.upd (pathUpd (pathJoin dirPath name)) :: evs, st', .fatal m)
    else if isDirE sub then
      match useDBEntries cfg chunk dirPath rest depth st with
      | (evs, st', r) =>
        (Event.upd (pathUpd (pathJoin dirPath name))
           :: Event.upd (useDBFinishUpd chunk (0, 0, 0)) :: evs, st', r)
    else
      match useDBFile cfg (pathJoin dirPath name) (contentOf sub) st with
      | (fevs, ds, st', .ok) =>
        match useDBEntries cfg chunk dirPath rest depth st' with
        | (evs2, st2, r) =>
          (Event.upd (pathUpd (pathJoin dirPath name))
             :: fevs ++ Event.upd (useDBFinishUpd chunk ds) :: evs2, st2, r)
      | (fevs, _, st', .fatal m) =>
        (Event.upd (pathUpd (pathJoin dirPath name)) :: fevs, st', .fatal m)
termination_by sizeOf entries

end

/-! ## `deleteDupes` -/

mutual

/-- Model of `deleteDupes` (compare.go): single-tree walk deleting files whose
digest is already in the shared visited set; returns the events, the tree of
surviving entries, and the grown visited set. -/
def deleteDupes (cfg : Config) (pv : ℚ) (dir : String × FSTree) (depth : Int)
    (hashes : List Bytes) : List Event × FSTree × List Bytes :=
  have := sizeOf_listOf_lt dir.2
  match ddEntries cfg (splitProgressValue pv (listOf dir.2).length).1 dir.1
      (listOf dir.2) depth hashes with
  | (evs, kept, hs) =>
    (evs ++ [Event.upd (finishCallUpd (splitProgressValue pv (listOf dir.2).length).2)],
     .dir kept, hs)
termination_by sizeOf dir.2

/-- The `i` loop of `deleteDupes` over the listing; the returned listing holds
the entries still on disk. -/
def ddEntries (cfg : Config) (chunk : ℚ) (dirPath : String) (entries : Listing)
    (depth : Int) (hashes : List Bytes) : List Event × Listing × List Bytes :=
  match entries with
  | [] => ([], [], hashes)
  | (name, sub) :: rest =>
    if entryIgnored cfg (pathJoin dirPath name) name sub then
      match ddEntries cfg chunk dirPath rest depth hashes with
      | (evs, kept, hs) => (Event.upd (ignoreUpd chunk) :: evs, (name, sub) :: kept, hs)
    else if isDirE sub && depth != 0 then
      match deleteDupes cfg chunk (pathJoin dirPath name, sub) (depth - 1) hashes with
      | (evs, sub', hs) =>
        match ddEntries cfg chunk dirPath rest depth hs with
        | (evs2, kept, hs2) =>
          (Event.upd (pathUpd (pathJoin dirPath name)) :: evs ++ evs2,
           (name, sub') :: kept, hs2)
    else if isDirE sub then
      match ddEntries cfg chunk dirPath rest depth hashes with
      | (evs, kept, hs) =>
        (Event.upd (pathUpd (pathJoin dirPath name))
           :: Event.upd (finishUpd chunk 0 0 0) :: evs, (name, sub) :: kept, hs)
    else
      if hashes.contains (hashFile (contentOf sub)) then
        match ddEntries cfg chunk dirPath rest depth hashes with
        | (evs, kept, hs) =>
          (Event.upd (pathUpd (pathJoin dirPath name))
             :: Event.upd (finishUpd chunk 1 0 0) :: evs, kept, hs)
      else
        match ddEntries cfg chunk dirPath rest depth (hashFile (contentOf sub) :: hashes) with
        | (evs, kept, hs) =>
          (Event.upd (pathUpd (pathJoin dirPath name))
             :: Event.upd (finishUpd chunk 0 1 0) :: evs, (name, sub) :: kept, hs)
termination_by sizeOf entries

end

/-! ## `findGaps` -/

/-- One padded decimal number as printed by `fmt.Sprintf` with the
`%0Wd` verb produced by `GapOpts.GetFormat`. -/
def padInt (width : Int) (n : Int) : String :=
  (if n < 0 then "-" else "")
    ++ String.mk (List.replicate (width - ((toString n.natAbs).length + if n < 0 then 1 else 0)).toNat '0')
    ++ toString n.natAbs

/-- `fmt.Sprintf(gapFormat, seq)` with `gapFormat = GapOpts.GetFormat()`. -/
def GapOpts.format (g : GapOpts) (seq : Int) : String :=
  g.pre ++ padInt g.width seq ++ g.suf

/-- The inclusive range `begin .. end` walked by the `seq` loops. -/
def seqRange (b e : Int) : List Int := (List.range (e + 1 - b).toNat).map (fun i => b + i)

/-- The key set of `foundFiles`, in `seq` order. -/
def expectedNames (g : GapOpts) : List String := (seqRange g.begin g.stop).map g.format

/-- Go's idempotent `map[k] = true` on the found set. -/
def insertStr (n : String) (l : List String) : List String := if n ∈ l then l else n :: l

/-- The `stats.missing = len(dirNames) * (end - begin + 1)` lock block. -/
def gapSeedUpd (n : Int) : Upd := { setMissing := some n }

/-- The per-entry lock block of `findGaps`. -/
def gapUpd (fullName : String) (chunk : ℚ) (dec : Bool) : Upd :=
  { setPath := some fullName, dProgress := chunk,
    dMatched := if dec then 1 else 0, dMissing := if dec then -1 else 0 }

/-- The `j` loop of `findGaps` over one directory listing, threading the
found set; returns its events and the final found set. -/
def markFound (sub : FSTree) (name : String) (expected found : List String) : List String :=
  if !isDirE sub && expected.contains name then insertStr name found else found

def gapScan (chunk : ℚ) (dirPath : String) (entries : Listing)
    (expected : List String) (found : List String) : List Event × List String :=
  match entries with
  | [] => ([], found)
  | (name, sub) :: rest =>
    (Event.upd (gapUpd (pathJoin dirPath name) chunk
        ((markFound sub name expected found).contains name))
       :: (gapScan chunk dirPath rest expected (markFound sub name expected found)).1,
     (gapScan chunk dirPath rest expected (markFound sub name expected found)).2)

/-- One directory argument of `findGaps`: scan the listing, then report every
expected name still unfound, in `seq` order. -/
def gapDir (chunk : ℚ) (d : String × FSTree) (expected : List String) : List Event :=
  (gapScan chunk d.1 (listOf d.2) expected []).1
    ++ (expected.filter (fun n => !(gapScan chunk d.1 (listOf d.2) expected []).2.contains n)).map
        (fun n => Event.report (.gapMissing n))

/-- Model of `findGaps` (compare.go): progress is split over the total entry
count across all directory arguments; the missing counter is seeded to
`len(dirNames) * (end - begin + 1)` up front. -/
def findGaps (cfg : Config) (pv : ℚ) (dirs : List (String × FSTree)) : List Event :=
  Event.upd (gapSeedUpd ((dirs.length : Int) * (cfg.gapOpts.stop - cfg.gapOpts.begin + 1)))
    :: (dirs.map (fun d =>
          gapDir (splitProgressValue pv ((dirs.map (fun d => (listOf d.2).length)).sum)).1 d
            (expectedNames cfg.gapOpts))).flatten
    ++ [Event.upd (finishCallUpd
          (splitProgressValue pv ((dirs.map (fun d => (listOf d.2).length)).sum)).2)]

/-! ## Auxiliary notions used by the statements -/

/-- The entry names of a listing, in listing order. -/
def namesOf (l : Listing) : List String := l.map Prod.fst

/-- The names of the non-directory entries of a listing, in listing order. -/
def nonDirNames (l : Listing) : List String :=
  (l.filter (fun p => !isDirE p.2)).map Prod.fst

/-- Whether the keys of a listing are pairwise distinct — true of every
listing a real filesystem can produce. -/
def nodupKeys : Listing → Bool
  | [] => true
  | (n, _) :: rest => !(rest.any (fun p => p.1 == n)) && nodupKeys rest

mutual

/-- Filesystem well-formedness: every directory's listing has pairwise
distinct names.  Every tree obtained from a real directory walk satisfies
this. -/
def wfTree : FSTree → Bool
  | .file _ => true
  | .dir es => nodupKeys es && wfListing es
termination_by t => sizeOf t

/-- All entries of the listing are well-formed. -/
def wfListing : Listing → Bool
  | [] => true
  | (_, te) :: rest => wfTree te && wfListing rest
termination_by l => sizeOf l

end

mutual

/-- Remove from a target tree every entry whose name does not occur in the
corresponding source listing, level by level (at matched subdirectories the
pruning continues against that source subdirectory).  Extra target content —
exactly what haystack mode promises to tolerate — is what this deletes. -/
def prune (src tgt : FSTree) : FSTree :=
  match tgt with
  | .file c => .file c
  | .dir tes => .dir (pruneListing (listOf src) tes)
termination_by sizeOf tgt

/-- Prune one target listing against a source listing. -/
def pruneListing (srcL : Listing) (tes : Listing) : Listing :=
  match tes with
  | [] => []
  | (n, te) :: rest =>
    match findNamed n srcL with
    | none => pruneListing srcL rest
    | some (_, se) =>
      (n, if isDirE se && isDirE te then prune se te else te) :: pruneListing srcL rest
termination_by sizeOf tes

end

/-- The transformation pruning induces on one target's search outcome: a
matched directory candidate is replaced by its pruned version, everything
else is untouched. -/
def pruneOutcome (sub : FSTree) (x : String × SearchOutcome) : String × SearchOutcome :=
  (x.1, match x.2 with
    | .matched te => .matched (if isDirE sub && isDirE te then prune sub te else te)
    | o => o)

/-- All counters of the stats are non-negative. -/
def nonnegStats (s : Stats) : Prop :=
  0 ≤ s.matched ∧ 0 ≤ s.mismatched ∧ 0 ≤ s.missing ∧ 0 ≤ s.ignored ∧ 0 ≤ s.copied

instance (s : Stats) : Decidable (nonnegStats s) := by
  unfold nonnegStats
  infer_instance

/-- A locked update whose deltas are all non-negative and which does not
assign the missing counter; such updates preserve `nonnegStats`. -/
def Upd.safe (u : Upd) : Prop :=
  0 ≤ u.dMatched ∧ 0 ≤ u.dMismatched ∧ 0 ≤ u.dMissing ∧ 0 ≤ u.dIgnored
    ∧ 0 ≤ u.dCopied ∧ u.setMissing = none

/-- The `MISSING` gap reports of a trace, in order. -/
def gapMissingOf (es : List Event) : List String :=
  es.filterMap (fun e => match e with
    | .report (.gapMissing n) => some n
    | _ => none)

/-! ## Generic trace lemmas -/

/-- Progress contribution of one event. -/
def eventProg : Event → ℚ
  | .upd u => u.dProgress
  | .report _ => 0

/-- Total progress increment of a trace. -/
def progOf (es : List Event) : ℚ := (es.map eventProg).sum

@[simp] theorem eventProg_upd (u : Upd) : eventProg (.upd u) = u.dProgress := rfl

@[simp] theorem eventProg_report (r : Report) : eventProg (.report r) = 0 := rfl

@[simp] theorem progOf_nil : progOf [] = 0 := rfl

@[simp] theorem progOf_cons (e : Event) (es : List Event) :
    progOf (e :: es) = eventProg e + progOf es := by
  simp [progOf]

@[simp] theorem progOf_append (a b : List Event) : progOf (a ++ b) = progOf a + progOf b := by
  simp [progOf]

theorem progOf_report_map {α : Type} (l : List α) (f : α → Report) :
    progOf (l.map (fun x => Event.report (f x))) = 0 := by
  induction l with
  | nil => rfl
  | cons a l ih => simp [ih]

@[simp] theorem applyEvents_nil (s : Stats) : applyEvents s [] = s := rfl

@[simp] theorem applyEvents_cons_upd (s : Stats) (u : Upd) (es : List Event) :
    applyEvents s (.upd u :: es) = applyEvents (applyUpd s u) es := rfl

@[simp] theorem applyEvents_cons_report (s : Stats) (r : Report) (es : List Event) :
    applyEvents s (.report r :: es) = applyEvents s es := rfl

@[simp] theorem applyEvents_append (s : Stats) (a b : List Event) :
    applyEvents s (a ++ b) = applyEvents (applyEvents s a) b := by
  simp [applyEvents, List.foldl_append]

theorem applyEvents_progress (s : Stats) (es : List Event) :
    (applyEvents s es).progress = s.progress + progOf es := by
  induction es generalizing s with
  | nil => simp
  | cons e es ih =>
    cases e with
    | upd u => simp [ih, applyUpd]; ring
    | report r => simp [ih]

@[simp] theorem lockStates_nil (s : Stats) : lockStates s [] = [] := rfl

@[simp] theorem lockStates_cons_upd (s : Stats) (u : Upd) (es : List Event) :
    lockStates s (.upd u :: es) = applyUpd s u :: lockStates (applyUpd s u) es := rfl

@[simp] theorem lockStates_cons_report (s : Stats) (r : Report) (es : List Event) :
    lockStates s (.report r :: es) = lockStates s es := rfl

@[simp] theorem lockStates_append (s : Stats) (a b : List Event) :
    lockStates s (a ++ b) = lockStates s a ++ lockStates (applyEvents s a) b := by
  induction a generalizing s with
  | nil => simp
  | cons e a ih =>
    cases e with
    | upd u => simp [ih]
    | report r => simp [ih]

/-! ## Progress conservation of `compareDir` -/

theorem tree_sizeOf_pos (t : FSTree) : 0 < sizeOf t := by
  cases t <;> simp_arith

theorem progOf_searchReportEvents (isDir : Bool) (outs : List (String × SearchOutcome)) :
    progOf (searchReportEvents isDir outs) = 0 := by
  unfold searchReportEvents
  exact progOf_report_map _ (fun r => r)

theorem progOf_entryTail (cfg : Config) (chunk : ℚ) (sub : FSTree)
    (outs : List (String × SearchOutcome)) :
    progOf (entryTail cfg chunk sub outs) = chunk := by
  unfold entryTail
  by_cases h : (!isDirE sub && !cfg.noData && !(matchedOf outs).isEmpty) = true
  · simp [h, finishUpd, progOf_report_map _ Report.wrongHash]
  · simp [h, finishUpd]

theorem progOf_cmp (n : Nat) :
    (∀ cfg pv (src : String × FSTree) tgts depth, sizeOf src.2 ≤ n →
        progOf (cmpDir cfg pv src tgts depth) = pv)
  ∧ (∀ cfg (chunk : ℚ) srcPath (entries : Listing) tgts depth, sizeOf entries ≤ n →
        progOf (cmpEntries cfg chunk srcPath entries tgts depth) = chunk * entries.length) := by
  induction n with
  | zero =>
    constructor
    · intro cfg pv src tgts depth h
      exact absurd h (by have := tree_sizeOf_pos src.2; omega)
    · intro cfg chunk srcPath entries tgts depth h
      exact absurd h (by have := list_sizeOf_pos entries; omega)
  | succ n ih =>
    constructor
    · intro cfg pv src tgts depth h
      rw [cmpDir]
      have hle : sizeOf (listOf src.2) ≤ n := by
        have := sizeOf_listOf_lt src.2; omega
      rw [progOf_append]
      rw [ih.2 cfg _ src.1 (listOf src.2) tgts depth hle]
      simp [finishCallUpd, splitProgressValue]
    · intro cfg chunk srcPath entries tgts depth h
      match entries with
      | [] => simp [cmpEntries]
      | (name, sub) :: rest =>
        have hsub : sizeOf sub ≤ n := by
          have : sizeOf ((name, sub) :: rest) = 1 + (1 + sizeOf name + sizeOf sub) + sizeOf rest := by
            simp_arith
          omega
        have hrest : sizeOf rest ≤ n := by
          have : sizeOf ((name, sub) :: rest) = 1 + (1 + sizeOf name + sizeOf sub) + sizeOf rest := by
            simp_arith
          have := tree_sizeOf_pos sub
          omega
        rw [cmpEntries]
        rw [progOf_append, ih.2 cfg chunk srcPath rest tgts depth hrest]
        have hone : progOf
            (if entryIgnored cfg (pathJoin srcPath name) name sub then
              [Event.upd (ignoreUpd chunk)]
             else if recurseQ sub depth (searchOutcomes name (isDirE sub) tgts) then
              Event.upd (pathUpd (pathJoin srcPath name))
                :: searchReportEvents (isDirE sub) (searchOutcomes name (isDirE sub) tgts)
                ++ cmpDir cfg chunk (pathJoin srcPath name, sub)
                     (matchedOf (searchOutcomes name (isDirE sub) tgts)) (depth - 1)
                ++ [Event.upd (mergeUpd (searchOutcomes name (isDirE sub) tgts))]
             else
              Event.upd (pathUpd (pathJoin srcPath name))
                :: searchReportEvents (isDirE sub) (searchOutcomes name (isDirE sub) tgts)
                ++ entryTail cfg chunk sub (searchOutcomes name (isDirE sub) tgts)) = chunk := by
          by_cases h1 : entryIgnored cfg (pathJoin srcPath name) name sub
          · simp [h1, ignoreUpd]
          · by_cases h2 : recurseQ sub depth (searchOutcomes name (isDirE sub) tgts)
            · simp only [h1, h2, if_true, if_false, Bool.false_eq_true, List.cons_append,
                progOf_cons, progOf_append]
              rw [ih.1 cfg chunk (pathJoin srcPath name, sub) _ (depth - 1) hsub]
              simp [pathUpd, mergeUpd, progOf_searchReportEvents]
            · simp only [h1, h2, if_true, if_false, Bool.false_eq_true, List.cons_append,
                progOf_cons, progOf_append]
              rw [progOf_entryTail]
              simp [pathUpd, progOf_searchReportEvents]
        rw [hone]
        simp
        ring

/-- C1: progress conservation — over exact (rational) arithmetic, one
invocation of `compareDir` with budget `b` increases `stats.progress` by
exactly `b` for every tree shape, every single source entry (ignored, file,
matched/unmatched/depth-limited directory) consumes exactly one chunk, the
chunk is `b / n` over `n` source entries and `0` when `n = 0`, and the
remainder `b - chunk * n` is flushed exactly once at the end of the call. -/
theorem C1_progress_conservation :
    (∀ cfg pv (src : String × FSTree) tgts depth (s : Stats),
        (applyEvents s (cmpDir cfg pv src tgts depth)).progress = s.progress + pv)
  ∧ (∀ cfg (chunk : ℚ) srcPath name (sub : FSTree) tgts depth (s : Stats),
        (applyEvents s (cmpEntries cfg chunk srcPath [(name, sub)] tgts depth)).progress
          = s.progress + chunk)
  ∧ (∀ pv : ℚ, splitProgressValue pv 0 = (0, pv))
  ∧ (∀ (pv : ℚ) (n : Nat), (splitProgressValue pv (n + 1)).1 = pv / ((n : ℚ) + 1))
  ∧ (∀ (pv : ℚ) (n : Nat),
        (splitProgressValue pv n).2 = pv - (splitProgressValue pv n).1 * (n : ℚ)) := by
  refine ⟨?_, ?_, ?_, ?_, ?_⟩
  · intro cfg pv src tgts depth s
    rw [applyEvents_progress, (progOf_cmp (sizeOf src.2)).1 cfg pv src tgts depth le_rfl]
  · intro cfg chunk srcPath name sub tgts depth s
    rw [applyEvents_progress,
      (progOf_cmp (sizeOf [(name, sub)])).2 cfg chunk srcPath [(name, sub)] tgts depth le_rfl]
    simp
  · intro pv
    simp [splitProgressValue]
  · intro pv n
    simp [splitProgressValue]
  · intro pv n
    simp [splitProgressValue]

/-! ## Type-mismatch precedence -/

theorem matchedOf_searchOutcomes (name : String) (isDir : Bool)
    (tgts : List (String × FSTree)) :
    matchedOf (searchOutcomes name isDir tgts)
      = tgts.filterMap (fun t => match searchTarget name isDir t with
          | .matched sub => some (pathJoin t.1 name, sub)
          | _ => none) := by
  induction tgts with
  | nil => rfl
  | cons t ts ih =>
    simp only [searchOutcomes, List.map_cons, matchedOf, List.filterMap_cons] at *
    cases h : searchTarget name isDir t <;> simp [h, ih, matchedOf, searchOutcomes]

theorem report_mem_searchReportEvents (isDir : Bool) (outs : List (String × SearchOutcome))
    (p : String) (h : (p, SearchOutcome.typeMismatch) ∈ outs) :
    Event.report (if isDir then Report.expectedDir p else Report.expectedFile p)
      ∈ searchReportEvents isDir outs := by
  unfold searchReportEvents
  exact List.mem_map_of_mem _ (List.mem_filterMap.mpr ⟨(p, .typeMismatch), h, rfl⟩)

theorem cmpEntries_singleton (cfg : Config) (chunk : ℚ) (srcPath name : String)
    (sub : FSTree) (tgts : List (String × FSTree)) (depth : Int) :
    cmpEntries cfg chunk srcPath [(name, sub)] tgts depth
      = (if entryIgnored cfg (pathJoin srcPath name) name sub then
          [Event.upd (ignoreUpd chunk)]
         else if recurseQ sub depth (searchOutcomes name (isDirE sub) tgts) then
          Event.upd (pathUpd (pathJoin srcPath name))
            :: searchReportEvents (isDirE sub) (searchOutcomes name (isDirE sub) tgts)
            ++ cmpDir cfg chunk (pathJoin srcPath name, sub)
                 (matchedOf (searchOutcomes name (isDirE sub) tgts)) (depth - 1)
            ++ [Event.upd (mergeUpd (searchOutcomes name (isDirE sub) tgts))]
         else
          Event.upd (pathUpd (pathJoin srcPath name))
            :: searchReportEvents (isDirE sub) (searchOutcomes name (isDirE sub) tgts)
            ++ entryTail cfg chunk sub (searchOutcomes name (isDirE sub) tgts)) := by
  rw [cmpEntries, cmpEntries]
  simp

theorem entryTail_concat (cfg : Config) (chunk : ℚ) (sub : FSTree)
    (outs : List (String × SearchOutcome)) :
    ∃ l u, entryTail cfg chunk sub outs = l ++ [Event.upd u] := by
  unfold entryTail
  by_cases h : (!isDirE sub && !cfg.noData && !(matchedOf outs).isEmpty) = true
  · exact ⟨_, _, by rw [if_pos h]⟩
  · refine ⟨[], finishUpd chunk (dMatchedOf outs) (dMismatchedOf outs) (dMissingOf outs), ?_⟩
    rw [if_neg h]
    simp

/-- C2: type-mismatch precedence — when a source entry's name is found in a
target listing with the opposite kind, that pairing is judged a type
mismatch (contributing exactly one to the mismatched counter and nothing to
the missing or matched counters), a type-mismatch report for that target
path is printed, the candidate set used for recursion and hashing contains
only matched-outcome targets, and the entry still completes with its closing
lock update (reportable, not fatal). -/
theorem C2_type_mismatch_precedence :
    ∀ cfg (chunk : ℚ) (srcPath name : String) (sub : FSTree)
      (tgts : List (String × FSTree)) (depth : Int) (t : String × FSTree)
      (m : String) (e : FSTree),
      t ∈ tgts →
      findNamed name (listOf t.2) = some (m, e) →
      isDirE e ≠ isDirE sub →
      ¬ entryIgnored cfg (pathJoin srcPath name) name sub = true →
      searchTarget name (isDirE sub) t = .typeMismatch
      ∧ outcomeDeltas SearchOutcome.typeMismatch = (0, 1, 0)
      ∧ Event.report (if isDirE sub then Report.expectedDir (pathJoin t.1 name)
            else Report.expectedFile (pathJoin t.1 name))
          ∈ cmpEntries cfg chunk srcPath [(name, sub)] tgts depth
      ∧ matchedOf (searchOutcomes name (isDirE sub) tgts)
          = tgts.filterMap (fun t2 => match searchTarget name (isDirE sub) t2 with
              | .matched sub2 => some (pathJoin t2.1 name, sub2)
              | _ => none)
      ∧ ∃ u, (cmpEntries cfg chunk srcPath [(name, sub)] tgts depth).getLast?
          = some (.upd u) := by
  intro cfg chunk srcPath name sub tgts depth t m e hmem hfind hkind hign
  have houtcome : searchTarget name (isDirE sub) t = .typeMismatch := by
    unfold searchTarget
    rw [hfind]
    simp only []
    have : (isDirE e == isDirE sub) = false := by
      cases h1 : isDirE e <;> cases h2 : isDirE sub <;> simp_all
    rw [this]
    simp
  have hmemout : (pathJoin t.1 name, SearchOutcome.typeMismatch)
      ∈ searchOutcomes name (isDirE sub) tgts := by
    unfold searchOutcomes
    have h0 := List.mem_map_of_mem
      (fun t2 : String × FSTree => (pathJoin t2.1 name, searchTarget name (isDirE sub) t2)) hmem
    simpa [houtcome] using h0
  refine ⟨houtcome, rfl, ?_, matchedOf_searchOutcomes name (isDirE sub) tgts, ?_⟩
  · rw [cmpEntries_singleton, if_neg hign]
    have hrep := report_mem_searchReportEvents (isDirE sub) _ _ hmemout
    by_cases hrec : recurseQ sub depth (searchOutcomes name (isDirE sub) tgts)
    · rw [if_pos hrec]
      exact List.mem_cons_of_mem _
        (List.mem_append_left _ (List.mem_append_left _ hrep))
    · rw [if_neg hrec]
      exact List.mem_cons_of_mem _ (List.mem_append_left _ hrep)
  · rw [cmpEntries_singleton, if_neg hign]
    by_cases hrec : recurseQ sub depth (searchOutcomes name (isDirE sub) tgts)
    · rw [if_pos hrec]
      refine ⟨mergeUpd (searchOutcomes name (isDirE sub) tgts), ?_⟩
      rw [show Event.upd (pathUpd (pathJoin srcPath name))
            :: searchReportEvents (isDirE sub) (searchOutcomes name (isDirE sub) tgts)
            ++ cmpDir cfg chunk (pathJoin srcPath name, sub)
                 (matchedOf (searchOutcomes name (isDirE sub) tgts)) (depth - 1)
            ++ [Event.upd (mergeUpd (searchOutcomes name (isDirE sub) tgts))]
          = (Event.upd (pathUpd (pathJoin srcPath name))
            :: searchReportEvents (isDirE sub) (searchOutcomes name (isDirE sub) tgts)
            ++ cmpDir cfg chunk (pathJoin srcPath name, sub)
                 (matchedOf (searchOutcomes name (isDirE sub) tgts)) (depth - 1))
            ++ [Event.upd (mergeUpd (searchOutcomes name (isDirE sub) tgts))] by simp]
      exact List.getLast?_concat _
    · rw [if_neg hrec]
      obtain ⟨l, u, hl⟩ := entryTail_concat cfg chunk sub (searchOutcomes name (isDirE sub) tgts)
      refine ⟨u, ?_⟩
      rw [hl]
      rw [show Event.upd (pathUpd (pathJoin srcPath name))
            :: searchReportEvents (isDirE sub) (searchOutcomes name (isDirE sub) tgts)
            ++ (l ++ [Event.upd u])
          = (Event.upd (pathUpd (pathJoin srcPath name))
            :: searchReportEvents (isDirE sub) (searchOutcomes name (isDirE sub) tgts) ++ l)
            ++ [Event.upd u] by simp]
      exact List.getLast?_concat _

/-- Witness for C2 at a concrete input: source file `a`, one target whose
listing has a directory named `a`. -/
theorem C2_type_mismatch_precedence_witness :
    findNamed "a" (listOf (FSTree.dir [("a", FSTree.dir [])])) = some ("a", FSTree.dir [])
    ∧ Event.report (Report.expectedFile (pathJoin "/t" "a"))
        ∈ cmpEntries ⟨[], false, [], [], false, false, "", ⟨"", "", 0, 0, 0⟩⟩ 1 "/s"
            [("a", FSTree.file [1])] [("/t", FSTree.dir [("a", FSTree.dir [])])] (-1) := by
  constructor
  · rfl
  · have h := C2_type_mismatch_precedence
      ⟨[], false, [], [], false, false, "", ⟨"", "", 0, 0, 0⟩⟩ 1 "/s" "a" (FSTree.file [1])
      [("/t", FSTree.dir [("a", FSTree.dir [])])] (-1) ("/t", FSTree.dir [("a", FSTree.dir [])])
      "a" (FSTree.dir [])
      (List.mem_singleton.mpr rfl) rfl (by simp [isDirE]) (by decide)
    have h3 := h.2.2.1
    simpa [isDirE] using h3

/-! ## Wrong-hash accounting and the concrete two-file scenario -/

theorem mem_matchedOf (outs : List (String × SearchOutcome)) (p : String) (sub : FSTree)
    (h : (p, SearchOutcome.matched sub) ∈ outs) : (p, sub) ∈ matchedOf outs :=
  List.mem_filterMap.mpr ⟨(p, .matched sub), h, rfl⟩

/-- C5: when a source file's name is found in a target with matching type but
different digest, that pairing is first counted present (`matched` outcome),
then flagged `WRONG HASH`, and the entry's closing lock update carries
`deltaMatched` decremented and `deltaMismatched` incremented by the number of
wrong-hash pairings; consequently the concrete scenario — source
`{a.txt: X, b.txt: Y}` against target `{a.txt: X, b.txt: Z}` — ends with
counters matched = 1, mismatched = 1, missing = 0. -/
theorem C5_wrong_hash_scenario :
    (∀ cfg (chunk : ℚ) (name : String) (c : Bytes) (tgts : List (String × FSTree))
       (t : String × FSTree) (m : String) (ce : Bytes),
       t ∈ tgts →
       findNamed name (listOf t.2) = some (m, .file ce) →
       hashFile ce ≠ hashFile c →
       cfg.noData = false →
       searchTarget name (isDirE (.file c)) t = .matched (.file ce)
       ∧ pathJoin t.1 name
           ∈ wrongHashPaths c (matchedOf (searchOutcomes name (isDirE (.file c)) tgts))
       ∧ entryTail cfg chunk (.file c) (searchOutcomes name (isDirE (.file c)) tgts)
           = (wrongHashPaths c (matchedOf (searchOutcomes name (isDirE (.file c)) tgts))).map
               (fun p => Event.report (.wrongHash p))
             ++ [Event.upd (finishUpd chunk
                   (dMatchedOf (searchOutcomes name (isDirE (.file c)) tgts)
                     - (wrongHashPaths c
                         (matchedOf (searchOutcomes name (isDirE (.file c)) tgts))).length)
                   (dMismatchedOf (searchOutcomes name (isDirE (.file c)) tgts)
                     + (wrongHashPaths c
                         (matchedOf (searchOutcomes name (isDirE (.file c)) tgts))).length)
                   (dMissingOf (searchOutcomes name (isDirE (.file c)) tgts)))])
  ∧ applyEvents Stats.init
      (cmpDir ⟨["/src", "/tgt"], false, [], [], false, false, "", ⟨"", "", 0, 0, 0⟩⟩ 100
        ("/src", .dir [("a.txt", .file [88]), ("b.txt", .file [89])])
        [("/tgt", .dir [("a.txt", .file [88]), ("b.txt", .file [90])])] (-1))
      = ⟨100, "", 1, 1, 0, 0, 0⟩ := by
  constructor
  · intro cfg chunk name c tgts t m ce hmem hfind hdiff hnd
    have houtcome : searchTarget name (isDirE (FSTree.file c)) t = .matched (.file ce) := by
      unfold searchTarget
      rw [hfind]
      simp [isDirE]
    have hmemout : (pathJoin t.1 name, SearchOutcome.matched (.file ce))
        ∈ searchOutcomes name (isDirE (.file c)) tgts := by
      unfold searchOutcomes
      have h0 := List.mem_map_of_mem
        (fun t2 : String × FSTree =>
          (pathJoin t2.1 name, searchTarget name (isDirE (FSTree.file c)) t2)) hmem
      simpa [houtcome] using h0
    have hmts : (pathJoin t.1 name, FSTree.file ce)
        ∈ matchedOf (searchOutcomes name (isDirE (.file c)) tgts) :=
      mem_matchedOf _ _ _ hmemout
    have hwrong : pathJoin t.1 name
        ∈ wrongHashPaths c (matchedOf (searchOutcomes name (isDirE (.file c)) tgts)) := by
      unfold wrongHashPaths
      refine List.mem_map.mpr ⟨(pathJoin t.1 name, FSTree.file ce), ?_, rfl⟩
      refine List.mem_filter.mpr ⟨hmts, ?_⟩
      simp [contentOf]
      intro heq
      exact hdiff (by simpa [hashFile] using heq)
    refine ⟨houtcome, hwrong, ?_⟩
    unfold entryTail
    have hne : matchedOf (searchOutcomes name (isDirE (.file c)) tgts) ≠ [] := by
      intro hm
      rw [hm] at hmts
      exact absurd hmts (List.not_mem_nil _)
    rw [if_pos]
    · rfl
    · simp only [isDirE, hnd, Bool.not_false, Bool.true_and, Bool.not_eq_true']
      exact List.isEmpty_eq_false.mpr hne
  · simp [cmpDir, cmpEntries, entryTail, applyEvents, applyUpd, Stats.init,
      entryIgnored, recurseQ, searchOutcomes, searchTarget, findNamed, matchedOf, wrongHashPaths,
      hashFile, contentOf, listOf, isDirE, pathJoin, splitProgressValue, searchReportEvents,
      outcomeReport, dMatchedOf, dMismatchedOf, dMissingOf, outcomeDeltas, finishUpd,
      finishCallUpd, pathUpd, ignoreUpd, mergeUpd]

/-- Witness for C5 at a concrete input: one source file `b` with content
`[89]`, one target holding `b` with content `[90]`. -/
theorem C5_wrong_hash_scenario_witness :
    hashFile [90] ≠ hashFile [89]
    ∧ pathJoin "/t" "b"
        ∈ wrongHashPaths [89]
            (matchedOf (searchOutcomes "b" (isDirE (.file [89]))
              [("/t", FSTree.dir [("b", FSTree.file [90])])])) := by
  constructor
  · decide
  · have h := C5_wrong_hash_scenario.1
      ⟨[], false, [], [], false, false, "", ⟨"", "", 0, 0, 0⟩⟩ 1 "b" [89]
      [("/t", FSTree.dir [("b", FSTree.file [90])])]
      ("/t", FSTree.dir [("b", FSTree.file [90])]) "b" [90]
      (List.mem_singleton.mpr rfl) rfl (by decide) rfl
    exact h.2.1

/-! ## Depth limiting -/

theorem bne_zero_of_neg (d : Int) (h : d < 0) : (d != 0) = true := by
  simp only [bne_iff_ne, ne_eq]
  omega

theorem cmpDir_neg_depth (n : Nat) :
    (∀ cfg pv (src : String × FSTree) tgts (d d' : Int), sizeOf src.2 ≤ n →
        d < 0 → d' < 0 → cmpDir cfg pv src tgts d = cmpDir cfg pv src tgts d')
  ∧ (∀ cfg (chunk : ℚ) srcPath (entries : Listing) tgts (d d' : Int), sizeOf entries ≤ n →
        d < 0 → d' < 0 →
        cmpEntries cfg chunk srcPath entries tgts d = cmpEntries cfg chunk srcPath entries tgts d') := by
  induction n with
  | zero =>
    constructor
    · intro cfg pv src tgts d d' h
      exact absurd h (by have := tree_sizeOf_pos src.2; omega)
    · intro cfg chunk srcPath entries tgts d d' h
      exact absurd h (by have := list_sizeOf_pos entries; omega)
  | succ n ih =>
    constructor
    · intro cfg pv src tgts d d' h hd hd'
      have hle : sizeOf (listOf src.2) ≤ n := by
        have := sizeOf_listOf_lt src.2; omega
      simp only [cmpDir]
      rw [ih.2 cfg _ src.1 (listOf src.2) tgts d d' hle hd hd']
    · intro cfg chunk srcPath entries tgts d d' h hd hd'
      match entries with
      | [] => simp only [cmpEntries]
      | (name, sub) :: rest =>
        have hsub : sizeOf sub ≤ n := by
          have : sizeOf ((name, sub) :: rest) = 1 + (1 + sizeOf name + sizeOf sub) + sizeOf rest := by
            simp_arith
          omega
        have hrest : sizeOf rest ≤ n := by
          have : sizeOf ((name, sub) :: rest) = 1 + (1 + sizeOf name + sizeOf sub) + sizeOf rest := by
            simp_arith
          have := tree_sizeOf_pos sub
          omega
        simp only [cmpEntries]
        rw [ih.2 cfg chunk srcPath rest tgts d d' hrest hd hd']
        congr 1
        have hq : recurseQ sub d (searchOutcomes name (isDirE sub) tgts)
            = recurseQ sub d' (searchOutcomes name (isDirE sub) tgts) := by
          unfold recurseQ
          rw [bne_zero_of_neg d hd, bne_zero_of_neg d' hd']
        by_cases h1 : entryIgnored cfg (pathJoin srcPath name) name sub
        · rw [if_pos h1, if_pos h1]
        · rw [if_neg h1, if_neg h1, hq]
          by_cases h2 : recurseQ sub d' (searchOutcomes name (isDirE sub) tgts)
          · rw [if_pos h2, if_pos h2]
            rw [ih.1 cfg chunk (pathJoin srcPath name, sub) _ (d - 1) (d' - 1) hsub
              (by omega) (by omega)]
          · rw [if_neg h2, if_neg h2]

theorem useDB_neg_depth (n : Nat) :
    (∀ cfg pv (dir : String × FSTree) st (d d' : Int), sizeOf dir.2 ≤ n →
        d < 0 → d' < 0 → useDB cfg pv dir d st = useDB cfg pv dir d' st)
  ∧ (∀ cfg (chunk : ℚ) dirPath (entries : Listing) st (d d' : Int), sizeOf entries ≤ n →
        d < 0 → d' < 0 →
        useDBEntries cfg chunk dirPath entries d st = useDBEntries cfg chunk dirPath entries d' st) := by
  induction n with
  | zero =>
    constructor
    · intro cfg pv dir st d d' h
      exact absurd h (by have := tree_sizeOf_pos dir.2; omega)
    · intro cfg chunk dirPath entries st d d' h
      exact absurd h (by have := list_sizeOf_pos entries; omega)
  | succ n ih =>
    constructor
    · intro cfg pv dir st d d' h hd hd'
      have hle : sizeOf (listOf dir.2) ≤ n := by
        have := sizeOf_listOf_lt dir.2; omega
      simp only [useDB]
      rw [ih.2 cfg _ dir.1 (listOf dir.2) st d d' hle hd hd']
    · intro cfg chunk dirPath entries st d d' h hd hd'
      match entries with
      | [] => simp only [useDBEntries]
      | (name, sub) :: rest =>
        have hsub : sizeOf sub ≤ n := by
          have : sizeOf ((name, sub) :: rest) = 1 + (1 + sizeOf name + sizeOf sub) + sizeOf rest := by
            simp_arith
          omega
        have hrest : sizeOf rest ≤ n := by
          have : sizeOf ((name, sub) :: rest) = 1 + (1 + sizeOf name + sizeOf sub) + sizeOf rest := by
            simp_arith
          have := tree_sizeOf_pos sub
          omega
        simp only [useDBEntries]
        by_cases h1 : entryIgnored cfg (pathJoin dirPath name) name sub
        · rw [if_pos h1, if_pos h1, ih.2 cfg chunk dirPath rest st d d' hrest hd hd']
        · rw [if_neg h1, if_neg h1]
          have hb : (isDirE sub && (d != 0)) = (isDirE sub && (d' != 0)) := by
            rw [bne_zero_of_neg d hd, bne_zero_of_neg d' hd']
          rw [hb]
          by_cases h2 : (isDirE sub && (d' != 0)) = true
          · rw [if_pos h2, if_pos h2]
            rw [ih.1 cfg chunk (pathJoin dirPath name, sub) st (d - 1) (d' - 1) hsub
              (by omega) (by omega)]
            cases hrec : useDB cfg chunk (pathJoin dirPath name, sub) (d' - 1) st with
            | mk evs rest2 =>
              cases rest2 with
              | mk st' r =>
                cases r with
                | ok => simp only []
                        rw [ih.2 cfg chunk dirPath rest st' d d' hrest hd hd']
                | fatal m => simp only []
          · rw [if_neg h2, if_neg h2]
            by_cases h3 : isDirE sub = true
            · rw [if_pos h3, if_pos h3, ih.2 cfg chunk dirPath rest st d d' hrest hd hd']
            · rw [if_neg h3, if_neg h3]
              cases hfile : useDBFile cfg (pathJoin dirPath name) (contentOf sub) st with
              | mk fevs rest2 =>
                cases rest2 with
                | mk ds rest3 =>
                  cases rest3 with
                  | mk st' r =>
                    cases r with
                    | ok => simp only []
                            rw [ih.2 cfg chunk dirPath rest st' d d' hrest hd hd']
                    | fatal m => simp only []

/-- C8: depth limiting — at `depthRemaining = 0` a non-ignored source
subdirectory is still searched for by name and type in every target, its
counter deltas and progress chunk are still recorded, but no recursion
happens: the produced events do not depend on the subdirectory's contents at
all (the right-hand sides below never mention `es`); likewise for `useDB`;
and for any two negative depths (so in particular `-1` and everything the
per-level decrement `d - 1` can reach from it) `compareDir` and `useDB`
behave identically, so descent is unlimited. -/
theorem C8_depth_limiting :
    (∀ cfg (chunk : ℚ) (srcPath name : String) (es : Listing)
       (tgts : List (String × FSTree)),
       ¬ entryIgnored cfg (pathJoin srcPath name) name (.dir es) = true →
       cmpEntries cfg chunk srcPath [(name, .dir es)] tgts 0
         = Event.upd (pathUpd (pathJoin srcPath name))
           :: searchReportEvents true (searchOutcomes name true tgts)
           ++ [Event.upd (finishUpd chunk (dMatchedOf (searchOutcomes name true tgts))
                (dMismatchedOf (searchOutcomes name true tgts))
                (dMissingOf (searchOutcomes name true tgts)))])
  ∧ (∀ cfg (chunk : ℚ) (dirPath name : String) (es : Listing) (st : DBSt),
       ¬ entryIgnored cfg (pathJoin dirPath name) name (.dir es) = true →
       useDBEntries cfg chunk dirPath [(name, .dir es)] 0 st
         = ([Event.upd (pathUpd (pathJoin dirPath name)),
             Event.upd (useDBFinishUpd chunk (0, 0, 0))], st, .ok))
  ∧ (∀ cfg pv (src : String × FSTree) tgts (d d' : Int), d < 0 → d' < 0 →
       cmpDir cfg pv src tgts d = cmpDir cfg pv src tgts d')
  ∧ (∀ cfg pv (dir : String × FSTree) (st : DBSt) (d d' : Int), d < 0 → d' < 0 →
       useDB cfg pv dir d st = useDB cfg pv dir d' st) := by
  refine ⟨?_, ?_, ?_, ?_⟩
  · intro cfg chunk srcPath name es tgts hign
    rw [cmpEntries_singleton, if_neg hign, if_neg]
    · unfold entryTail
      rw [if_neg]
      · simp [isDirE]
      · simp [isDirE]
    · unfold recurseQ
      simp
  · intro cfg chunk dirPath name es st hign
    simp only [useDBEntries]
    rw [if_neg hign, if_neg, if_pos]
    · rfl
    · simp [isDirE]
  · intro cfg pv src tgts d d' hd hd'
    exact (cmpDir_neg_depth (sizeOf src.2)).1 cfg pv src tgts d d' le_rfl hd hd'
  · intro cfg pv dir st d d' hd hd'
    exact (useDB_neg_depth (sizeOf dir.2)).1 cfg pv dir st d d' le_rfl hd hd'

/-- Witness for C8 at concrete inputs: a subdirectory `a` at depth 0 against
one target that also has `a`, and `compareDir` at depths `-1` and `-7`. -/
theorem C8_depth_limiting_witness :
    ¬ entryIgnored ⟨[], false, [], [], false, false, "", ⟨"", "", 0, 0, 0⟩⟩
        (pathJoin "/s" "a") "a" (.dir [("x", FSTree.file [1])]) = true
    ∧ cmpEntries ⟨[], false, [], [], false, false, "", ⟨"", "", 0, 0, 0⟩⟩ 1 "/s"
          [("a", FSTree.dir [("x", FSTree.file [1])])]
          [("/t", FSTree.dir [("a", FSTree.dir [])])] 0
        = Event.upd (pathUpd (pathJoin "/s" "a"))
          :: searchReportEvents true (searchOutcomes "a" true [("/t", FSTree.dir [("a", FSTree.dir [])])])
          ++ [Event.upd (finishUpd 1
               (dMatchedOf (searchOutcomes "a" true [("/t", FSTree.dir [("a", FSTree.dir [])])]))
               (dMismatchedOf (searchOutcomes "a" true [("/t", FSTree.dir [("a", FSTree.dir [])])]))
               (dMissingOf (searchOutcomes "a" true [("/t", FSTree.dir [("a", FSTree.dir [])])])))]
    ∧ cmpDir ⟨[], false, [], [], false, false, "", ⟨"", "", 0, 0, 0⟩⟩ 1
          ("/s", FSTree.dir [("a", FSTree.dir [])]) [] (-1)
        = cmpDir ⟨[], false, [], [], false, false, "", ⟨"", "", 0, 0, 0⟩⟩ 1
          ("/s", FSTree.dir [("a", FSTree.dir [])]) [] (-7) :=
  ⟨by decide,
   C8_depth_limiting.1 ⟨[], false, [], [], false, false, "", ⟨"", "", 0, 0, 0⟩⟩ 1 "/s" "a"
     [("x", FSTree.file [1])] [("/t", FSTree.dir [("a", FSTree.dir [])])] (by decide),
   C8_depth_limiting.2.2.1 ⟨[], false, [], [], false, false, "", ⟨"", "", 0, 0, 0⟩⟩ 1
     ("/s", FSTree.dir [("a", FSTree.dir [])]) [] (-1) (-7) (by decide) (by decide)⟩

/-! ## Dedupe determinism -/

/-- C6: dedupe determinism — on a directory listing files `A`, `B`, `C` in
that order with `B` and `C` byte-identical and `A` different (none ignored),
`deleteDupes` started with an empty visited set keeps exactly `A` and the
first-encountered of `{B, C}` on disk and deletes the other; each
first/unique occurrence puts its digest into the visited set and counts one
`mismatched`, the duplicate counts one `matched` and is removed; and the
visited set is threaded through the whole recursive walk, so a duplicate
sitting in a sibling subdirectory is deleted too. -/
theorem C6_dedupe_determinism :
    (∀ cfg (pv : ℚ) (p nA nB nC : String) (cA cB : Bytes) (depth : Int),
       cA ≠ cB →
       nA ∉ cfg.ignoreFiles →
       nB ∉ cfg.ignoreFiles →
       nC ∉ cfg.ignoreFiles →
       (deleteDupes cfg pv
           (p, .dir [(nA, .file cA), (nB, .file cB), (nC, .file cB)]) depth []).2.1
         = .dir [(nA, .file cA), (nB, .file cB)]
       ∧ (deleteDupes cfg pv
           (p, .dir [(nA, .file cA), (nB, .file cB), (nC, .file cB)]) depth []).2.2
         = [hashFile cB, hashFile cA]
       ∧ ∀ s : Stats,
           (applyEvents s (deleteDupes cfg pv
               (p, .dir [(nA, .file cA), (nB, .file cB), (nC, .file cB)]) depth []).1).matched
             = s.matched + 1
           ∧ (applyEvents s (deleteDupes cfg pv
               (p, .dir [(nA, .file cA), (nB, .file cB), (nC, .file cB)]) depth []).1).mismatched
             = s.mismatched + 2)
  ∧ (∀ cfg (pv : ℚ) (p d1 d2 x y : String) (c : Bytes) (depth : Int),
       depth ≠ 0 →
       pathJoin p d1 ∉ cfg.ignoreSpecificDirs →
       pathJoin p d2 ∉ cfg.ignoreSpecificDirs →
       x ∉ cfg.ignoreFiles →
       y ∉ cfg.ignoreFiles →
       (deleteDupes cfg pv
           (p, .dir [(d1, .dir [(x, .file c)]), (d2, .dir [(y, .file c)])]) depth []).2.1
         = .dir [(d1, .dir [(x, .file c)]), (d2, .dir [])]) := by
  constructor
  · intro cfg pv p nA nB nC cA cB depth hAB hA hB hC
    have hBA : (cB == cA) = false := beq_eq_false_iff_ne.mpr (fun h => hAB h.symm)
    have hignA : entryIgnored cfg (pathJoin p nA) nA (.file cA) = false := by
      simp [entryIgnored, isDirE, hA]
    have hignB : entryIgnored cfg (pathJoin p nB) nB (.file cB) = false := by
      simp [entryIgnored, isDirE, hB]
    have hignC : entryIgnored cfg (pathJoin p nC) nC (.file cB) = false := by
      simp [entryIgnored, isDirE, hC]
    simp only [deleteDupes, ddEntries, listOf]
    simp only [hignA, hignB, hignC, isDirE, contentOf, hashFile, hBA, Bool.false_and,
      Bool.false_eq_true, if_false, List.contains_nil, List.contains_cons, Bool.or_false,
      beq_self_eq_true, Bool.or_true, if_true]
    refine ⟨trivial, trivial, ?_⟩
    intro s
    simp [applyEvents, applyUpd, pathUpd, finishUpd, finishCallUpd]
    omega
  · intro cfg pv p d1 d2 x y c depth hdep hd1 hd2 hx hy
    have hdep' : (depth != 0) = true := by simpa using hdep
    have hignd1 : entryIgnored cfg (pathJoin p d1) d1 (.dir [(x, .file c)]) = false := by
      simp [entryIgnored, isDirE, hd1]
    have hignd2 : entryIgnored cfg (pathJoin p d2) d2 (.dir [(y, .file c)]) = false := by
      simp [entryIgnored, isDirE, hd2]
    have hignx : entryIgnored cfg (pathJoin (pathJoin p d1) x) x (.file c) = false := by
      simp [entryIgnored, isDirE, hx]
    have higny : entryIgnored cfg (pathJoin (pathJoin p d2) y) y (.file c) = false := by
      simp [entryIgnored, isDirE, hy]
    simp only [deleteDupes, ddEntries, listOf]
    simp [hignd1, hignd2, hignx, higny, isDirE, hdep', contentOf, hashFile]

/-- Witness for C6 at concrete inputs: contents `[1]` versus `[2]` in one
directory, and the same content `[9]` duplicated across two sibling
subdirectories. -/
theorem C6_dedupe_determinism_witness :
    ([1] : Bytes) ≠ [2]
    ∧ (deleteDupes ⟨[], false, [], [], false, false, "", ⟨"", "", 0, 0, 0⟩⟩ 100
          ("/s", .dir [("A", .file [1]), ("B", .file [2]), ("C", .file [2])]) (-1) []).2.1
        = .dir [("A", FSTree.file [1]), ("B", FSTree.file [2])]
    ∧ (deleteDupes ⟨[], false, [], [], false, false, "", ⟨"", "", 0, 0, 0⟩⟩ 100
          ("/s", .dir [("d1", .dir [("x", .file [9])]), ("d2", .dir [("y", .file [9])])])
          (-1) []).2.1
        = .dir [("d1", FSTree.dir [("x", FSTree.file [9])]), ("d2", FSTree.dir [])] :=
  ⟨by decide,
   (C6_dedupe_determinism.1 ⟨[], false, [], [], false, false, "", ⟨"", "", 0, 0, 0⟩⟩ 100
     "/s" "A" "B" "C" [1] [2] (-1) (by decide) (by decide) (by decide) (by decide)).1,
   C6_dedupe_determinism.2 ⟨[], false, [], [], false, false, "", ⟨"", "", 0, 0, 0⟩⟩ 100
     "/s" "d1" "d2" "x" "y" [9] (-1) (by decide) (by decide) (by decide) (by decide)
     (by decide)⟩

/-! ## Gap detection -/

theorem nonDirNames_cons (name : String) (sub : FSTree) (rest : Listing) :
    nonDirNames ((name, sub) :: rest)
      = if isDirE sub then nonDirNames rest else name :: nonDirNames rest := by
  by_cases h : isDirE sub <;> simp [nonDirNames, List.filter_cons, h]

theorem mem_insertStr (x n : String) (l : List String) :
    x ∈ insertStr n l ↔ x = n ∨ x ∈ l := by
  unfold insertStr
  by_cases h : n ∈ l
  · simp only [if_pos h]
    constructor
    · exact Or.inr
    · rintro (rfl | hx)
      · exact h
      · exact hx
  · simp [if_neg h]

theorem mem_markFound (sub : FSTree) (name : String) (expected found : List String)
    (x : String) :
    x ∈ markFound sub name expected found
      ↔ x ∈ found ∨ (isDirE sub = false ∧ name ∈ expected ∧ x = name) := by
  unfold markFound
  by_cases hdir : isDirE sub
  · simp [hdir]
  · by_cases hexp : expected.contains name
    · have hexp' : name ∈ expected := by simpa using hexp
      simp only [hdir, hexp, Bool.not_false, Bool.true_and, if_true, mem_insertStr]
      constructor
      · rintro (rfl | hf)
        · exact Or.inr ⟨by simp [hdir], hexp', rfl⟩
        · exact Or.inl hf
      · rintro (hf | ⟨_, _, rfl⟩)
        · exact Or.inr hf
        · exact Or.inl rfl
    · have hexp' : name ∉ expected := by simpa using hexp
      simp only [hdir, hexp, Bool.not_false, Bool.true_and, if_false, Bool.false_eq_true]
      constructor
      · exact Or.inl
      · rintro (hf | ⟨_, he, rfl⟩)
        · exact hf
        · exact absurd he hexp'

theorem gapScan_found (chunk : ℚ) (dirPath : String) (entries : Listing)
    (expected : List String) (found : List String) (x : String) :
    x ∈ (gapScan chunk dirPath entries expected found).2
      ↔ x ∈ found ∨ (x ∈ expected ∧ x ∈ nonDirNames entries) := by
  induction entries generalizing found with
  | nil => simp [gapScan, nonDirNames]
  | cons e rest ih =>
    match e with
    | (name, sub) =>
      simp only [gapScan]
      rw [ih, mem_markFound, nonDirNames_cons]
      by_cases hdir : isDirE sub
      · simp only [hdir, if_pos, if_true]
        constructor
        · rintro ((hf | ⟨hfalse, _⟩) | he)
          · exact Or.inl hf
          · exact absurd hfalse (by simp)
          · exact Or.inr he
        · rintro (hf | he)
          · exact Or.inl (Or.inl hf)
          · exact Or.inr he
      · have hdir' : isDirE sub = false := by simpa using hdir
        simp only [hdir', if_false, List.mem_cons, Bool.false_eq_true]
        constructor
        · rintro ((hf | ⟨_, hne, rfl⟩) | ⟨he1, he2⟩)
          · exact Or.inl hf
          · exact Or.inr ⟨hne, Or.inl rfl⟩
          · exact Or.inr ⟨he1, Or.inr he2⟩
        · rintro (hf | ⟨he, rfl | hn⟩)
          · exact Or.inl (Or.inl hf)
          · exact Or.inl (Or.inr ⟨trivial, he, rfl⟩)
          · exact Or.inr ⟨he, hn⟩

theorem gapMissingOf_nil : gapMissingOf [] = [] := rfl

theorem gapMissingOf_append (a b : List Event) :
    gapMissingOf (a ++ b) = gapMissingOf a ++ gapMissingOf b := by
  simp [gapMissingOf]

theorem gapMissingOf_gapScan (chunk : ℚ) (dirPath : String) (entries : Listing)
    (expected found : List String) :
    gapMissingOf (gapScan chunk dirPath entries expected found).1 = [] := by
  induction entries generalizing found with
  | nil => rfl
  | cons e rest ih =>
    match e with
    | (name, sub) =>
      simp only [gapScan]
      simp [gapMissingOf] at ih ⊢
      exact ih _

theorem gapMissingOf_report_map (l : List String) :
    gapMissingOf (l.map (fun n => Event.report (.gapMissing n))) = l := by
  induction l with
  | nil => rfl
  | cons a l ih => simp [gapMissingOf] at ih ⊢; exact ih

theorem gapMissingOf_gapDir (chunk : ℚ) (d : String × FSTree) (expected : List String) :
    gapMissingOf (gapDir chunk d expected)
      = expected.filter (fun n => !(nonDirNames (listOf d.2)).contains n) := by
  unfold gapDir
  rw [gapMissingOf_append, gapMissingOf_gapScan, List.nil_append, gapMissingOf_report_map]
  apply List.filter_congr
  intro n hn
  have hfound : n ∈ (gapScan chunk d.1 (listOf d.2) expected []).2
      ↔ n ∈ expected ∧ n ∈ nonDirNames (listOf d.2) := by
    simpa using gapScan_found chunk d.1 (listOf d.2) expected [] n
  by_cases hmem : n ∈ nonDirNames (listOf d.2)
  · have : n ∈ (gapScan chunk d.1 (listOf d.2) expected []).2 := hfound.mpr ⟨hn, hmem⟩
    simp [this, hmem]
  · have : n ∉ (gapScan chunk d.1 (listOf d.2) expected []).2 :=
      fun hf => hmem (hfound.mp hf).2
    simp [this, hmem]

theorem gapMissingOf_gapDirs (chunk : ℚ) (expected : List String)
    (dirs : List (String × FSTree)) :
    gapMissingOf ((dirs.map (fun d => gapDir chunk d expected)).flatten)
      = (dirs.map (fun d =>
          expected.filter (fun n => !(nonDirNames (listOf d.2)).contains n))).flatten := by
  induction dirs with
  | nil => rfl
  | cons d ds ih =>
    simp only [List.map_cons, List.flatten_cons, gapMissingOf_append]
    rw [gapMissingOf_gapDir, ih]

theorem gapMissingOf_findGaps (cfg : Config) (pv : ℚ) (dirs : List (String × FSTree)) :
    gapMissingOf (findGaps cfg pv dirs)
      = (dirs.map (fun d => (expectedNames cfg.gapOpts).filter
          (fun n => !(nonDirNames (listOf d.2)).contains n))).flatten := by
  unfold findGaps
  rw [show ∀ (u : Upd) (es : List Event), Event.upd u :: es = [Event.upd u] ++ es
    by intros; rfl]
  rw [gapMissingOf_append, gapMissingOf_append, gapMissingOf_gapDirs]
  simp [gapMissingOf]

theorem nonDirNames_subset_namesOf (l : Listing) : nonDirNames l ⊆ namesOf l := by
  unfold nonDirNames namesOf
  exact List.map_subset _ (List.filter_subset' _)

/-- C7: gap detection — in general, `findGaps` reports for each directory
argument exactly the expected names (pattern applied to the inclusive range,
in sequence order) that no non-directory entry of that directory carries; in
particular, for the pattern `IMG_/4:14-16/.JPG` over a directory listing that
has non-directory entries `IMG_0014.JPG` and `IMG_0016.JPG` and no entry at
all named `IMG_0015.JPG`, the reported missing set is exactly
`{IMG_0015.JPG}`. -/
theorem C7_gap_detection :
    (∀ cfg (pv : ℚ) (dirs : List (String × FSTree)),
       gapMissingOf (findGaps cfg pv dirs)
         = (dirs.map (fun d => (expectedNames cfg.gapOpts).filter
             (fun n => !(nonDirNames (listOf d.2)).contains n))).flatten)
  ∧ (∀ cfg (pv : ℚ) (p : String) (l : Listing),
       cfg.gapOpts = ⟨"IMG_", ".JPG", 4, 14, 16⟩ →
       "IMG_0014.JPG" ∈ nonDirNames l →
       "IMG_0016.JPG" ∈ nonDirNames l →
       "IMG_0015.JPG" ∉ namesOf l →
       gapMissingOf (findGaps cfg pv [(p, .dir l)]) = ["IMG_0015.JPG"]) := by
  constructor
  · exact gapMissingOf_findGaps
  · intro cfg pv p l hg h14 h16 h15
    rw [gapMissingOf_findGaps, hg]
    have hexp : expectedNames ⟨"IMG_", ".JPG", 4, 14, 16⟩
        = ["IMG_0014.JPG", "IMG_0015.JPG", "IMG_0016.JPG"] := by decide
    simp only [List.map_cons, List.map_nil, List.flatten_cons, List.flatten_nil,
      List.append_nil, listOf, hexp]
    have h15' : "IMG_0015.JPG" ∉ nonDirNames l :=
      fun h => h15 (nonDirNames_subset_namesOf l h)
    simp [List.filter_cons, h14, h16, h15']

/-- Witness for C7 at a concrete listing holding `IMG_0014.JPG` and
`IMG_0016.JPG` but not `IMG_0015.JPG`. -/
theorem C7_gap_detection_witness :
    "IMG_0014.JPG" ∈ nonDirNames [("IMG_0014.JPG", FSTree.file [1]), ("IMG_0016.JPG", FSTree.file [2])]
    ∧ "IMG_0015.JPG" ∉ namesOf [("IMG_0014.JPG", FSTree.file [1]), ("IMG_0016.JPG", FSTree.file [2])]
    ∧ gapMissingOf (findGaps
        ⟨["/d"], false, [], [], false, false, "", ⟨"IMG_", ".JPG", 4, 14, 16⟩⟩ 100
        [("/d", .dir [("IMG_0014.JPG", FSTree.file [1]), ("IMG_0016.JPG", FSTree.file [2])])])
      = ["IMG_0015.JPG"] :=
  ⟨by decide, by decide,
   C7_gap_detection.2 ⟨["/d"], false, [], [], false, false, "", ⟨"IMG_", ".JPG", 4, 14, 16⟩⟩
     100 "/d" [("IMG_0014.JPG", FSTree.file [1]), ("IMG_0016.JPG", FSTree.file [2])]
     rfl (by decide) (by decide) (by decide)⟩

/-! ## Hash-database record idempotence -/

theorem splitLines_line (entry ys : List Char) (hnl : '\n' ∉ entry) :
    splitLines (entry ++ '\n' :: ys) = entry :: splitLines ys := by
  induction entry with
  | nil => simp [splitLines]
  | cons c cs ih =>
    have hc : c ≠ '\n' := fun h => hnl (h ▸ List.mem_cons_self c cs)
    have hcs : '\n' ∉ cs := fun h => hnl (List.mem_cons_of_mem c h)
    rw [List.cons_append, splitLines, if_neg hc, ih hcs]

theorem splitLines_ne_nil (xs : List Char) : splitLines xs ≠ [] := by
  cases xs with
  | nil => simp [splitLines]
  | cons c rest =>
    rw [splitLines]
    by_cases h : c = '\n'
    · simp [h]
    · rw [if_neg h]
      cases hs : splitLines rest with
      | nil => simp
      | cons l ls => simp

theorem mem_splitLines_tail (entry : List Char) (hnl : '\n' ∉ entry) (content : List Char)
    (hlast : content.getLast? = some '\n') :
    entry ∈ (splitLines (content ++ entry ++ ['\n'])).tail := by
  induction content with
  | nil => simp at hlast
  | cons c cs ih =>
    cases cs with
    | nil =>
      have hc : c = '\n' := by simpa using hlast
      subst hc
      rw [List.cons_append, List.cons_append, splitLines, if_pos rfl]
      rw [List.nil_append, show entry ++ ['\n'] = entry ++ '\n' :: [] from rfl,
        splitLines_line entry [] hnl]
      exact List.mem_cons_self _ _
    | cons c2 cs2 =>
      have hlast2 : (c2 :: cs2).getLast? = some '\n' := by
        rwa [List.getLast?_cons_cons] at hlast
      have ihm := ih hlast2
      by_cases hc : c = '\n'
      · subst hc
        rw [List.cons_append, List.cons_append, splitLines, if_pos rfl]
        rw [List.tail_cons]
        cases hs : splitLines ((c2 :: cs2) ++ entry ++ ['\n']) with
        | nil => exact absurd hs (splitLines_ne_nil _)
        | cons l ls =>
          rw [hs, List.tail_cons] at ihm
          exact List.mem_cons_of_mem l ihm
      · rw [List.cons_append, List.cons_append, splitLines, if_neg hc]
        cases hs : splitLines ((c2 :: cs2) ++ entry ++ ['\n']) with
        | nil => exact absurd hs (splitLines_ne_nil _)
        | cons l ls =>
          rw [hs, List.tail_cons] at ihm
          simpa using ihm

theorem mem_splitLines_append (content entry : List Char) (hnl : '\n' ∉ entry)
    (hwf : content = [] ∨ content.getLast? = some '\n') :
    entry ∈ splitLines (content ++ entry ++ ['\n']) := by
  rcases hwf with rfl | hlast
  · rw [List.nil_append, show entry ++ ['\n'] = entry ++ '\n' :: [] from rfl,
      splitLines_line entry [] hnl]
    exact List.mem_cons_self _ _
  · have h := mem_splitLines_tail entry hnl content hlast
    cases hs : splitLines (content ++ entry ++ ['\n']) with
    | nil => exact absurd hs (splitLines_ne_nil _)
    | cons l ls =>
      rw [hs, List.tail_cons] at h
      exact List.mem_cons_of_mem l h

theorem lookupKV_setKV_self {K V : Type} [DecidableEq K] (db : List (K × V)) (k : K) (v : V) :
    lookupKV (setKV db k v) k = some v := by
  induction db with
  | nil => simp [setKV, lookupKV]
  | cons p rest ih =>
    by_cases h : p.1 = k
    · simp [setKV, lookupKV, h]
    · cases p with
      | mk k' v' =>
        simp only [setKV] at *
        rw [if_neg h]
        simp only [lookupKV]
        rw [if_neg h]
        exact ih

/-- C4 counterexample: for the empty origin path on a fresh database, the
FIRST `ensureDBEntry` call writes nothing and returns `false` ("already
present"), because the empty shard file reads as the single empty line. -/
theorem C4_counterexample_empty_path :
    ensureDBEntry [] "/r" [171, 5] "" = ([], false) := by decide

/-- C4 (amended): for every database root, digest and origin path that is
nonempty and contains no newline, if the shard file named by the digest hex
(first two hex characters as the shard directory, the remaining characters
as the file name — second conjunct) is absent, or holds newline-terminated
content that does not yet list the path, then the first call appends exactly
the path followed by one newline and returns `true`, and calling again with
the same (digest, path) pair leaves the database unchanged and returns
`false`. -/
theorem C4_db_record_idempotence :
    (∀ (db : DBFiles) (root : String) (hash : Bytes) (entry : String),
       entry ≠ "" →
       '\n' ∉ entry.toList →
       ((lookupKV db (dbKey root hash)).getD [] = []
         ∨ ((lookupKV db (dbKey root hash)).getD []).getLast? = some '\n') →
       entry.toList ∉ splitLines ((lookupKV db (dbKey root hash)).getD []) →
       (ensureDBEntry db root hash entry).2 = true
       ∧ lookupKV (ensureDBEntry db root hash entry).1 (dbKey root hash)
           = some ((lookupKV db (dbKey root hash)).getD [] ++ entry.toList ++ ['\n'])
       ∧ ensureDBEntry (ensureDBEntry db root hash entry).1 root hash entry
           = ((ensureDBEntry db root hash entry).1, false))
  ∧ (∀ (root : String) (b : Nat) (bs : Bytes),
       dbKey root (b :: bs) = (root, String.mk (hexByte b), String.mk (bytesHex bs))) := by
  constructor
  · intro db root hash entry hne hnl hwf hnot
    have hfirst : ensureDBEntry db root hash entry
        = (setKV db (dbKey root hash)
            ((lookupKV db (dbKey root hash)).getD [] ++ entry.toList ++ ['\n']), true) := by
      unfold ensureDBEntry
      rw [if_neg hnot]
    have hlook : lookupKV (ensureDBEntry db root hash entry).1 (dbKey root hash)
        = some ((lookupKV db (dbKey root hash)).getD [] ++ entry.toList ++ ['\n']) := by
      rw [hfirst]
      exact lookupKV_setKV_self db _ _
    refine ⟨by rw [hfirst], hlook, ?_⟩
    generalize hdb2 : (ensureDBEntry db root hash entry).1 = db2 at hlook ⊢
    unfold ensureDBEntry
    rw [hlook]
    simp only [Option.getD_some]
    rw [if_pos (mem_splitLines_append _ _ hnl hwf)]
  · intro root b bs
    simp [dbKey, bytesHex, hexByte]

/-- Witness for C4 (amended) at a concrete input: fresh database, digest
`[171, 5]`, origin path `/root/f`. -/
theorem C4_db_record_idempotence_witness :
    ("/root/f" : String) ≠ ""
    ∧ '\n' ∉ ("/root/f" : String).toList
    ∧ (ensureDBEntry ([] : DBFiles) "/r" [171, 5] "/root/f").2 = true
    ∧ ensureDBEntry (ensureDBEntry ([] : DBFiles) "/r" [171, 5] "/root/f").1 "/r" [171, 5] "/root/f"
        = ((ensureDBEntry ([] : DBFiles) "/r" [171, 5] "/root/f").1, false) := by
  have h := C4_db_record_idempotence.1 [] "/r" [171, 5] "/root/f"
    (by decide) (by decide) (Or.inl rfl) (by decide)
  exact ⟨by decide, by decide, h.1, h.2.2⟩

/-! ## The copy path never overwrites -/

theorem lookupKV_append_left {K V : Type} [DecidableEq K] (l1 l2 : List (K × V)) (k : K)
    (v : V) (h : lookupKV l1 k = some v) : lookupKV (l1 ++ l2) k = some v := by
  induction l1 with
  | nil => simp [lookupKV] at h
  | cons p rest ih =>
    simp only [lookupKV] at h ⊢
    by_cases hk : p.1 = k
    · rwa [if_pos hk] at h ⊢
    · rw [if_neg hk] at h ⊢
      exact ih h

theorem copyFile_preserves (fs : DstFS) (src : Bytes) (dst : String) (fs' : DstFS)
    (hok : copyFile fs src dst = .ok fs') (p : String) (c0 : Bytes)
    (h : lookupKV fs p = some c0) : lookupKV fs' p = some c0 := by
  unfold copyFile at hok
  by_cases hex : (lookupKV fs dst).isSome
  · rw [if_pos hex] at hok
    exact absurd hok (by simp)
  · rw [if_neg hex] at hok
    cases hok
    exact lookupKV_append_left _ _ _ _ h

theorem useDBFile_preserves (cfg : Config) (fullName : String) (c : Bytes) (st : DBSt)
    (p : String) (c0 : Bytes) (h : lookupKV st.dst p = some c0) :
    lookupKV (useDBFile cfg fullName c st).2.2.1.dst p = some c0 := by
  unfold useDBFile
  by_cases hb : cfg.buildDB
  · rw [if_pos hb]
    cases hdb : ensureDBEntry st.db (cfg.entries.getD 1 "") (hashFile c) fullName with
    | mk db' wrote => cases wrote <;> simpa using h
  · rw [if_neg hb]
    by_cases hc : cfg.checkDB
    · rw [if_pos hc]
      by_cases hhas : hasDBEntry st.db (cfg.entries.headD "") (hashFile c)
      · rw [if_pos hhas]
        exact h
      · rw [if_neg hhas]
        by_cases hcopy : cfg.copy ≠ ""
        · rw [if_pos hcopy]
          by_cases hsuf : findSuffix cfg.entries fullName = ""
          · rw [if_pos hsuf]
            exact h
          · rw [if_neg hsuf]
            cases hcf : copyFile st.dst c (cfg.copy ++ findSuffix cfg.entries fullName) with
            | error e => exact h
            | ok dst' =>
              simpa using copyFile_preserves st.dst c _ dst' hcf p c0 h
        · rw [if_neg hcopy]
          exact h
    · rw [if_neg hc]
      exact h

theorem useDB_preserves_dst (n : Nat) :
    (∀ cfg pv (dir : String × FSTree) depth (st : DBSt) (p : String) (c0 : Bytes),
        sizeOf dir.2 ≤ n → lookupKV st.dst p = some c0 →
        lookupKV ((useDB cfg pv dir depth st).2.1).dst p = some c0)
  ∧ (∀ cfg (chunk : ℚ) dirPath (entries : Listing) depth (st : DBSt) (p : String) (c0 : Bytes),
        sizeOf entries ≤ n → lookupKV st.dst p = some c0 →
        lookupKV ((useDBEntries cfg chunk dirPath entries depth st).2.1).dst p = some c0) := by
  induction n with
  | zero =>
    constructor
    · intro cfg pv dir depth st p c0 h
      exact absurd h (by have := tree_sizeOf_pos dir.2; omega)
    · intro cfg chunk dirPath entries depth st p c0 h
      exact absurd h (by have := list_sizeOf_pos entries; omega)
  | succ n ih =>
    constructor
    · intro cfg pv dir depth st p c0 h hlook
      have hle : sizeOf (listOf dir.2) ≤ n := by
        have := sizeOf_listOf_lt dir.2; omega
      simp only [useDB]
      cases hrun : useDBEntries cfg (splitProgressValue pv (listOf dir.2).length).1 dir.1
          (listOf dir.2) depth st with
      | mk evs rest2 =>
        cases rest2 with
        | mk st' r =>
          have := ih.2 cfg (splitProgressValue pv (listOf dir.2).length).1 dir.1
            (listOf dir.2) depth st p c0 hle hlook
          rw [hrun] at this
          cases r <;> simpa using this
    · intro cfg chunk dirPath entries depth st p c0 h hlook
      match entries with
      | [] => simpa [useDBEntries] using hlook
      | (name, sub) :: rest =>
        have hsub : sizeOf sub ≤ n := by
          have : sizeOf ((name, sub) :: rest) = 1 + (1 + sizeOf name + sizeOf sub) + sizeOf rest := by
            simp_arith
          omega
        have hrest : sizeOf rest ≤ n := by
          have : sizeOf ((name, sub) :: rest) = 1 + (1 + sizeOf name + sizeOf sub) + sizeOf rest := by
            simp_arith
          have := tree_sizeOf_pos sub
          omega
        simp only [useDBEntries]
        by_cases h1 : entryIgnored cfg (pathJoin dirPath name) name sub
        · rw [if_pos h1]
          have := ih.2 cfg chunk dirPath rest depth st p c0 hrest hlook
          cases hrun : useDBEntries cfg chunk dirPath rest depth st with
          | mk evs rest2 =>
            cases rest2 with
            | mk st' r =>
              rw [hrun] at this
              simpa using this
        · rw [if_neg h1]
          by_cases h2 : (isDirE sub && (depth != 0)) = true
          · rw [if_pos h2]
            cases hrec : useDB cfg chunk (pathJoin dirPath name, sub) (depth - 1) st with
            | mk evs rest2 =>
              cases rest2 with
              | mk st' r =>
                have hst' : lookupKV st'.dst p = some c0 := by
                  have := ih.1 cfg chunk (pathJoin dirPath name, sub) (depth - 1) st p c0
                    hsub hlook
                  rw [hrec] at this
                  simpa using this
                cases r with
                | ok => simpa using ih.2 cfg chunk dirPath rest depth st' p c0 hrest hst'
                | fatal m => simpa using hst'
          · rw [if_neg h2]
            by_cases h3 : isDirE sub = true
            · rw [if_pos h3]
              have := ih.2 cfg chunk dirPath rest depth st p c0 hrest hlook
              cases hrun : useDBEntries cfg chunk dirPath rest depth st with
              | mk evs rest2 =>
                cases rest2 with
                | mk st' r =>
                  rw [hrun] at this
                  simpa using this
            · rw [if_neg h3]
              cases hfile : useDBFile cfg (pathJoin dirPath name) (contentOf sub) st with
              | mk fevs rest2 =>
                cases rest2 with
                | mk ds rest3 =>
                  cases rest3 with
                  | mk st' r =>
                    have hst' : lookupKV st'.dst p = some c0 := by
                      have := useDBFile_preserves cfg (pathJoin dirPath name) (contentOf sub)
                        st p c0 hlook
                      rw [hfile] at this
                      simpa using this
                    cases r with
                    | ok => simpa using ih.2 cfg chunk dirPath rest depth st' p c0 hrest hst'
                    | fatal m => simpa using hst'

/-- C9: the copy path never overwrites — `copyFile` opens the destination
with `O_CREATE|O_EXCL`, so it fails (touching nothing) whenever the computed
destination path already exists; a pre-existing destination file keeps its
exact bytes across any `useDB` run; and in check-database mode with a copy
destination configured, a file whose destination already exists makes the
run abort fatally with the state unchanged. -/
theorem C9_copy_never_overwrites :
    (∀ (fs : DstFS) (src : Bytes) (dst : String) (c0 : Bytes),
       lookupKV fs dst = some c0 → copyFile fs src dst = .error ())
  ∧ (∀ cfg pv (dir : String × FSTree) depth (st : DBSt) (p : String) (c0 : Bytes),
       lookupKV st.dst p = some c0 →
       lookupKV ((useDB cfg pv dir depth st).2.1).dst p = some c0)
  ∧ (∀ cfg (chunk : ℚ) (dirPath name : String) (c : Bytes) (depth : Int) (st : DBSt),
       cfg.buildDB = false →
       cfg.checkDB = true →
       cfg.copy ≠ "" →
       ¬ entryIgnored cfg (pathJoin dirPath name) name (.file c) = true →
       hasDBEntry st.db (cfg.entries.headD "") (hashFile c) = false →
       findSuffix cfg.entries (pathJoin dirPath name) ≠ "" →
       (lookupKV st.dst (cfg.copy ++ findSuffix cfg.entries (pathJoin dirPath name))).isSome →
       useDBEntries cfg chunk dirPath [(name, .file c)] depth st
         = ([Event.upd (pathUpd (pathJoin dirPath name))], st, .fatal "copy")) := by
  refine ⟨?_, ?_, ?_⟩
  · intro fs src dst c0 h
    unfold copyFile
    rw [if_pos (by simp [h])]
  · intro cfg pv dir depth st p c0 hlook
    exact (useDB_preserves_dst (sizeOf dir.2)).1 cfg pv dir depth st p c0 le_rfl hlook
  · intro cfg chunk dirPath name c depth st hb hc hcopy hign hhas hsuf hex
    simp only [useDBEntries]
    rw [if_neg hign, if_neg (by simp [isDirE]), if_neg (by simp [isDirE])]
    have hfile : useDBFile cfg (pathJoin dirPath name) (contentOf (.file c)) st
        = ([], (0, 0, 0), st, .fatal "copy") := by
      unfold useDBFile
      rw [if_neg (by simp [hb]), if_pos hc, if_neg (by simpa [contentOf] using hhas),
        if_pos hcopy, if_neg hsuf]
      unfold copyFile
      rw [if_pos hex]
    rw [hfile]

/-- Witness for C9 at a concrete input: check-db mode, copy destination
`/copy`, destination file `/copy/f` already present. -/
theorem C9_copy_never_overwrites_witness :
    lookupKV [("/copy/f", ([0] : Bytes))] "/copy/f" = some [0]
    ∧ copyFile [("/copy/f", ([0] : Bytes))] [7] "/copy/f" = .error ()
    ∧ useDBEntries ⟨["/src", "/t1"], false, [], [], false, true, "/copy", ⟨"", "", 0, 0, 0⟩⟩
        1 "/t1" [("f", .file [7])] (-1) ⟨[], [("/copy/f", [0])]⟩
        = ([Event.upd (pathUpd (pathJoin "/t1" "f"))], ⟨[], [("/copy/f", [0])]⟩, .fatal "copy") := by
  refine ⟨by decide, ?_, ?_⟩
  · exact C9_copy_never_overwrites.1 [("/copy/f", [0])] [7] "/copy/f" [0] (by decide)
  · exact C9_copy_never_overwrites.2.2
      ⟨["/src", "/t1"], false, [], [], false, true, "/copy", ⟨"", "", 0, 0, 0⟩⟩
      1 "/t1" "f" [7] (-1) ⟨[], [("/copy/f", [0])]⟩
      rfl rfl (by decide) (by decide) (by decide) (by decide) (by decide)

/-! ## Haystack tolerance (prune invariance) -/

theorem isDirE_prune (se te : FSTree) : isDirE (prune se te) = isDirE te := by
  cases te <;> simp [prune, isDirE]

theorem pruneListing_cons_some (srcL : Listing) (n : String) (te : FSTree) (rest : Listing)
    (m : String) (se : FSTree) (h : findNamed n srcL = some (m, se)) :
    pruneListing srcL ((n, te) :: rest)
      = (n, if isDirE se && isDirE te then prune se te else te) :: pruneListing srcL rest := by
  rw [pruneListing, h]

theorem pruneListing_cons_none (srcL : Listing) (n : String) (te : FSTree) (rest : Listing)
    (h : findNamed n srcL = none) :
    pruneListing srcL ((n, te) :: rest) = pruneListing srcL rest := by
  rw [pruneListing, h]

theorem findNamed_pruneListing (srcL : Listing) (name m : String) (se : FSTree)
    (hsrc : findNamed name srcL = some (m, se)) (tes : Listing) :
    findNamed name (pruneListing srcL tes)
      = (findNamed name tes).map
          (fun q => (q.1, if isDirE se && isDirE q.2 then prune se q.2 else q.2)) := by
  induction tes with
  | nil => simp [pruneListing, findNamed]
  | cons q rest ih =>
    obtain ⟨n, te⟩ := q
    by_cases hn : (n == name) = true
    · have hne : n = name := by simpa using hn
      subst hne
      rw [pruneListing_cons_some srcL n te rest m se hsrc]
      rw [findNamed, if_pos hn, findNamed, if_pos hn]
      rfl
    · cases hf : findNamed n srcL with
      | none =>
        rw [pruneListing_cons_none srcL n te rest hf, ih, findNamed, if_neg hn]
      | some q2 =>
        obtain ⟨m2, se2⟩ := q2
        rw [pruneListing_cons_some srcL n te rest m2 se2 hf]
        rw [findNamed, if_neg hn, findNamed, if_neg hn, ih]

theorem findNamed_self_of_nodupKeys (l : Listing) (name : String) (sub : FSTree)
    (hmem : (name, sub) ∈ l) (hnd : nodupKeys l = true) :
    findNamed name l = some (name, sub) := by
  induction l with
  | nil => exact absurd hmem (List.not_mem_nil _)
  | cons p rest ih =>
    match p with
    | (n, te) =>
      rw [nodupKeys, Bool.and_eq_true] at hnd
      obtain ⟨h1, hnd2⟩ := hnd
      have hnd1 : rest.any (fun p => p.1 == n) = false := by
        simpa using h1
      rcases List.mem_cons.mp hmem with heq | hmem2
      · cases heq
        rw [findNamed, if_pos (by simp)]
      · have hne : n ≠ name := by
          intro h
          subst h
          have : rest.any (fun p => p.1 == n) = true :=
            List.any_eq_true.mpr ⟨(n, sub), hmem2, by simp⟩
          rw [this] at hnd1
          exact absurd hnd1 (by simp)
        rw [findNamed, if_neg (by simpa using hne)]
        exact ih hmem2 hnd2

theorem wfTree_dir (es : Listing) (h : wfTree (.dir es) = true) :
    nodupKeys es = true ∧ wfListing es = true := by
  rw [wfTree, Bool.and_eq_true] at h
  exact h

theorem wfListing_mem (es : Listing) (name : String) (sub : FSTree)
    (h : wfListing es = true) (hmem : (name, sub) ∈ es) : wfTree sub = true := by
  induction es with
  | nil => exact absurd hmem (List.not_mem_nil _)
  | cons p rest ih =>
    match p with
    | (n, te) =>
      rw [wfListing, Bool.and_eq_true] at h
      obtain ⟨h1, h2⟩ := h
      rcases List.mem_cons.mp hmem with heq | hmem2
      · cases heq
        exact h1
      · exact ih h2 hmem2

theorem searchTarget_prune (srcL : Listing) (name : String) (sub : FSTree)
    (hfind : findNamed name srcL = some (name, sub)) (p : String) (tt : FSTree) :
    searchTarget name (isDirE sub) (p, prune (.dir srcL) tt)
      = match searchTarget name (isDirE sub) (p, tt) with
        | .missing => .missing
        | .typeMismatch => .typeMismatch
        | .matched te => .matched (if isDirE sub && isDirE te then prune sub te else te) := by
  cases tt with
  | file c =>
    simp [searchTarget, prune, listOf, findNamed]
  | dir tes =>
    have hlist : listOf (prune (FSTree.dir srcL) (FSTree.dir tes)) = pruneListing srcL tes := by
      simp [prune, listOf]
    cases hf : findNamed name tes with
    | none =>
      have h1 : searchTarget name (isDirE sub) (p, prune (.dir srcL) (.dir tes))
          = .missing := by
        unfold searchTarget
        rw [hlist, findNamed_pruneListing srcL name name sub hfind tes, hf]
        rfl
      have h2 : searchTarget name (isDirE sub) (p, .dir tes) = .missing := by
        unfold searchTarget
        rw [show listOf (FSTree.dir tes) = tes from rfl, hf]
      rw [h1, h2]
    | some q =>
      obtain ⟨qn, qe⟩ := q
      have h1 : searchTarget name (isDirE sub) (p, prune (.dir srcL) (.dir tes))
          = if isDirE (if isDirE sub && isDirE qe then prune sub qe else qe) == isDirE sub
            then .matched (if isDirE sub && isDirE qe then prune sub qe else qe)
            else .typeMismatch := by
        unfold searchTarget
        rw [hlist, findNamed_pruneListing srcL name name sub hfind tes, hf]
        rfl
      have h2 : searchTarget name (isDirE sub) (p, .dir tes)
          = if isDirE qe == isDirE sub then .matched qe else .typeMismatch := by
        unfold searchTarget
        rw [show listOf (FSTree.dir tes) = tes from rfl, hf]
      rw [h1, h2]
      have hpr : isDirE (if isDirE sub && isDirE qe then prune sub qe else qe) = isDirE qe := by
        by_cases hc : (isDirE sub && isDirE qe) = true
        · rw [if_pos hc, isDirE_prune]
        · rw [if_neg hc]
      rw [hpr]
      by_cases hm : (isDirE qe == isDirE sub) = true
      · rw [if_pos hm, if_pos hm]
      · rw [if_neg hm, if_neg hm]

theorem searchOutcomes_prune (srcL : Listing) (name : String) (sub : FSTree)
    (hfind : findNamed name srcL = some (name, sub)) (tgts : List (String × FSTree)) :
    searchOutcomes name (isDirE sub) (tgts.map (fun t => (t.1, prune (.dir srcL) t.2)))
      = (searchOutcomes name (isDirE sub) tgts).map (pruneOutcome sub) := by
  unfold searchOutcomes
  rw [List.map_map, List.map_map]
  apply List.map_congr_left
  intro t _
  obtain ⟨t1, t2⟩ := t
  show (pathJoin t1 name, searchTarget name (isDirE sub) (t1, prune (.dir srcL) t2))
    = pruneOutcome sub (pathJoin t1 name, searchTarget name (isDirE sub) (t1, t2))
  rw [searchTarget_prune srcL name sub hfind t1 t2]
  unfold pruneOutcome
  cases searchTarget name (isDirE sub) (t1, t2) <;> rfl

theorem dMatchedOf_pruneOutcome (sub : FSTree) (outs : List (String × SearchOutcome)) :
    dMatchedOf (outs.map (pruneOutcome sub)) = dMatchedOf outs := by
  induction outs with
  | nil => rfl
  | cons x rest ih =>
    obtain ⟨p, o⟩ := x
    cases o <;> simp [dMatchedOf, pruneOutcome, outcomeDeltas] at ih ⊢ <;> exact ih

theorem dMismatchedOf_pruneOutcome (sub : FSTree) (outs : List (String × SearchOutcome)) :
    dMismatchedOf (outs.map (pruneOutcome sub)) = dMismatchedOf outs := by
  induction outs with
  | nil => rfl
  | cons x rest ih =>
    obtain ⟨p, o⟩ := x
    cases o <;> simp [dMismatchedOf, pruneOutcome, outcomeDeltas] at ih ⊢ <;> exact ih

theorem dMissingOf_pruneOutcome (sub : FSTree) (outs : List (String × SearchOutcome)) :
    dMissingOf (outs.map (pruneOutcome sub)) = dMissingOf outs := by
  induction outs with
  | nil => rfl
  | cons x rest ih =>
    obtain ⟨p, o⟩ := x
    cases o <;> simp [dMissingOf, pruneOutcome, outcomeDeltas] at ih ⊢ <;> exact ih

theorem searchReportEvents_pruneOutcome (b : Bool) (sub : FSTree)
    (outs : List (String × SearchOutcome)) :
    searchReportEvents b (outs.map (pruneOutcome sub)) = searchReportEvents b outs := by
  unfold searchReportEvents
  congr 1
  induction outs with
  | nil => rfl
  | cons x rest ih =>
    obtain ⟨p, o⟩ := x
    cases o <;> simp [pruneOutcome, outcomeReport, List.filterMap_cons] at ih ⊢ <;> exact ih

theorem matchedOf_pruneOutcome (sub : FSTree) (outs : List (String × SearchOutcome)) :
    matchedOf (outs.map (pruneOutcome sub))
      = (matchedOf outs).map
          (fun q => (q.1, if isDirE sub && isDirE q.2 then prune sub q.2 else q.2)) := by
  induction outs with
  | nil => rfl
  | cons x rest ih =>
    obtain ⟨p, o⟩ := x
    cases o <;> simp [matchedOf, pruneOutcome, List.filterMap_cons] at ih ⊢ <;> exact ih

theorem isEmpty_map {α β : Type} (f : α → β) (l : List α) :
    (l.map f).isEmpty = l.isEmpty := by
  cases l <;> rfl

theorem mergeUpd_pruneOutcome (sub : FSTree) (outs : List (String × SearchOutcome)) :
    mergeUpd (outs.map (pruneOutcome sub)) = mergeUpd outs := by
  unfold mergeUpd
  rw [dMatchedOf_pruneOutcome, dMismatchedOf_pruneOutcome, dMissingOf_pruneOutcome]

theorem searchTarget_matched_isDir (name : String) (isDir : Bool) (t : String × FSTree)
    (te : FSTree) (h : searchTarget name isDir t = .matched te) : isDirE te = isDir := by
  unfold searchTarget at h
  cases hf : findNamed name (listOf t.2) with
  | none =>
    rw [hf] at h
    exact absurd h (by simp)
  | some q =>
    obtain ⟨qn, qe⟩ := q
    rw [hf] at h
    have h' : (if (isDirE qe == isDir) = true then SearchOutcome.matched qe
        else SearchOutcome.typeMismatch) = .matched te := h
    by_cases hd : (isDirE qe == isDir) = true
    · rw [if_pos hd] at h'
      cases h'
      simpa using hd
    · rw [if_neg hd] at h'
      exact absurd h' (by simp)

theorem matchedOf_isDir (name : String) (isDir : Bool) (tgts : List (String × FSTree)) :
    ∀ q ∈ matchedOf (searchOutcomes name isDir tgts), isDirE q.2 = isDir := by
  intro q hq
  unfold matchedOf at hq
  obtain ⟨x, hx, hxq⟩ := List.mem_filterMap.mp hq
  unfold searchOutcomes at hx
  obtain ⟨t, _, rfl⟩ := List.mem_map.mp hx
  revert hxq
  cases hst : searchTarget name isDir t with
  | missing => intro h; exact absurd h (by simp)
  | typeMismatch => intro h; exact absurd h (by simp)
  | matched te =>
    intro h
    have : q = (pathJoin t.1 name, te) := by simpa using h.symm
    subst this
    exact searchTarget_matched_isDir name isDir t te hst

theorem entryTail_pruneOutcome (cfg : Config) (chunk : ℚ) (sub : FSTree)
    (outs : List (String × SearchOutcome)) :
    entryTail cfg chunk sub (outs.map (pruneOutcome sub)) = entryTail cfg chunk sub outs := by
  unfold entryTail
  by_cases hdir : isDirE sub = true
  · rw [if_neg (by simp [hdir]), if_neg (by simp [hdir])]
    rw [dMatchedOf_pruneOutcome, dMismatchedOf_pruneOutcome, dMissingOf_pruneOutcome]
  · have hdir' : isDirE sub = false := by simpa using hdir
    have hmts : matchedOf (outs.map (pruneOutcome sub)) = matchedOf outs := by
      rw [matchedOf_pruneOutcome]
      have : ∀ q ∈ matchedOf outs,
          (fun q : String × FSTree =>
            (q.1, if isDirE sub && isDirE q.2 then prune sub q.2 else q.2)) q = q := by
        intro q _
        simp [hdir']
      rw [List.map_congr_left this, List.map_id']
    rw [hmts, dMatchedOf_pruneOutcome, dMismatchedOf_pruneOutcome, dMissingOf_pruneOutcome]

theorem cmp_prune (n : Nat) :
    (∀ cfg pv (src : String × FSTree) (tgts : List (String × FSTree)) depth,
        sizeOf src.2 ≤ n → wfTree src.2 = true →
        cmpDir cfg pv src (tgts.map (fun t => (t.1, prune src.2 t.2))) depth
          = cmpDir cfg pv src tgts depth)
  ∧ (∀ cfg (chunk : ℚ) srcPath (srcL entries : Listing) (tgts : List (String × FSTree)) depth,
        sizeOf entries ≤ n → nodupKeys srcL = true → wfListing srcL = true →
        (∀ x ∈ entries, x ∈ srcL) →
        cmpEntries cfg chunk srcPath entries
            (tgts.map (fun t => (t.1, prune (.dir srcL) t.2))) depth
          = cmpEntries cfg chunk srcPath entries tgts depth) := by
  induction n with
  | zero =>
    constructor
    · intro cfg pv src tgts depth h
      exact absurd h (by have := tree_sizeOf_pos src.2; omega)
    · intro cfg chunk srcPath srcL entries tgts depth h
      exact absurd h (by have := list_sizeOf_pos entries; omega)
  | succ n ih =>
    constructor
    · intro cfg pv src tgts depth h hwf
      obtain ⟨sp, st⟩ := src
      cases st with
      | file c =>
        simp only [cmpDir, listOf, cmpEntries]
      | dir es =>
        have hle : sizeOf es ≤ n := by
          have : sizeOf (FSTree.dir es) = 1 + sizeOf es := by simp_arith
          simp only [this] at h
          omega
        obtain ⟨hnd, hwl⟩ := wfTree_dir es hwf
        simp only [cmpDir]
        rw [show listOf (FSTree.dir es) = es from rfl]
        rw [ih.2 cfg _ sp es es tgts depth hle hnd hwl (fun x hx => hx)]
    · intro cfg chunk srcPath srcL entries tgts depth h hnd hwl hmem
      match entries with
      | [] => rw [cmpEntries, cmpEntries]
      | (name, sub) :: rest =>
        have hsub : sizeOf sub ≤ n := by
          have : sizeOf ((name, sub) :: rest) = 1 + (1 + sizeOf name + sizeOf sub) + sizeOf rest := by
            simp_arith
          omega
        have hrest : sizeOf rest ≤ n := by
          have : sizeOf ((name, sub) :: rest) = 1 + (1 + sizeOf name + sizeOf sub) + sizeOf rest := by
            simp_arith
          have := tree_sizeOf_pos sub
          omega
        have hmemhead : (name, sub) ∈ srcL := hmem _ (List.mem_cons_self _ _)
        have hfind := findNamed_self_of_nodupKeys srcL name sub hmemhead hnd
        have hwfsub : wfTree sub = true := wfListing_mem srcL name sub hwl hmemhead
        have houts := searchOutcomes_prune srcL name sub hfind tgts
        simp only [cmpEntries]
        rw [ih.2 cfg chunk srcPath srcL rest tgts depth hrest hnd hwl
          (fun x hx => hmem x (List.mem_cons_of_mem _ hx))]
        congr 1
        by_cases h1 : entryIgnored cfg (pathJoin srcPath name) name sub
        · rw [if_pos h1, if_pos h1]
        · rw [if_neg h1, if_neg h1]
          have hrq : recurseQ sub depth (searchOutcomes name (isDirE sub)
              (tgts.map (fun t => (t.1, prune (.dir srcL) t.2))))
              = recurseQ sub depth (searchOutcomes name (isDirE sub) tgts) := by
            unfold recurseQ
            rw [houts, matchedOf_pruneOutcome, isEmpty_map]
          rw [hrq]
          by_cases h2 : recurseQ sub depth (searchOutcomes name (isDirE sub) tgts)
          · rw [if_pos h2, if_pos h2]
            have hdirE : isDirE sub = true := by
              have h2' := h2
              simp only [recurseQ, Bool.and_eq_true] at h2'
              tauto
            rw [houts, searchReportEvents_pruneOutcome, mergeUpd_pruneOutcome,
              matchedOf_pruneOutcome]
            have hcongr : (matchedOf (searchOutcomes name (isDirE sub) tgts)).map
                (fun q => (q.1, if isDirE sub && isDirE q.2 then prune sub q.2 else q.2))
                = (matchedOf (searchOutcomes name (isDirE sub) tgts)).map
                    (fun t => (t.1, prune sub t.2)) := by
              apply List.map_congr_left
              intro q hq
              have hqd := matchedOf_isDir name (isDirE sub) tgts q hq
              rw [hqd, hdirE]
              simp
            rw [hcongr]
            rw [ih.1 cfg chunk (pathJoin srcPath name, sub)
              (matchedOf (searchOutcomes name (isDirE sub) tgts)) (depth - 1) hsub hwfsub]
          · rw [if_neg h2, if_neg h2]
            rw [houts, searchReportEvents_pruneOutcome, entryTail_pruneOutcome]

theorem mem_pruneListing_named (srcL tes : Listing) :
    ∀ q ∈ pruneListing srcL tes, findNamed q.1 srcL ≠ none := by
  induction tes with
  | nil =>
    intro q hq
    rw [pruneListing] at hq
    exact absurd hq (List.not_mem_nil _)
  | cons p rest ih =>
    obtain ⟨pn, pe⟩ := p
    intro q hq
    cases hf : findNamed pn srcL with
    | none =>
      rw [pruneListing_cons_none srcL pn pe rest hf] at hq
      exact ih q hq
    | some q2 =>
      obtain ⟨m2, se2⟩ := q2
      rw [pruneListing_cons_some srcL pn pe rest m2 se2 hf] at hq
      rcases List.mem_cons.mp hq with heq | hq2
      · subst heq
        simp [hf]
      · exact ih q hq2

/-- C3: haystack tolerance — pruning away every target entry whose name does
not occur in the corresponding source listing (recursively, level by level)
does not change the trace of `compareDir` at all: such extra entries are
never visited, never reported missing or mismatched, and never move any
counter, because the per-level iteration ranges only over the source
listing; and the pruned target keeps only entries whose name occurs in the
source listing. -/
theorem C3_haystack_tolerance :
    (∀ cfg pv (src : String × FSTree) (tgts : List (String × FSTree)) depth,
       wfTree src.2 = true →
       cmpDir cfg pv src (tgts.map (fun t => (t.1, prune src.2 t.2))) depth
         = cmpDir cfg pv src tgts depth)
  ∧ (∀ (srcL tes : Listing) (q : String × FSTree),
       q ∈ pruneListing srcL tes → findNamed q.1 srcL ≠ none) := by
  constructor
  · intro cfg pv src tgts depth hwf
    exact (cmp_prune (sizeOf src.2)).1 cfg pv src tgts depth le_rfl hwf
  · exact mem_pruneListing_named

/-- Witness for C3 at a concrete input: the target carries an extra file
`extra` and an extra directory `xd`; pruning them away leaves the
`compareDir` trace unchanged. -/
theorem C3_haystack_tolerance_witness :
    wfTree (FSTree.dir [("a", FSTree.file [1])]) = true
    ∧ cmpDir ⟨[], false, [], [], false, false, "", ⟨"", "", 0, 0, 0⟩⟩ 100
          ("/s", FSTree.dir [("a", FSTree.file [1])])
          ([("/t", FSTree.dir [("a", FSTree.file [1]), ("extra", FSTree.file [2]),
              ("xd", FSTree.dir [("y", FSTree.file [3])])])].map
            (fun t => (t.1, prune (FSTree.dir [("a", FSTree.file [1])]) t.2))) (-1)
        = cmpDir ⟨[], false, [], [], false, false, "", ⟨"", "", 0, 0, 0⟩⟩ 100
          ("/s", FSTree.dir [("a", FSTree.file [1])])
          [("/t", FSTree.dir [("a", FSTree.file [1]), ("extra", FSTree.file [2]),
              ("xd", FSTree.dir [("y", FSTree.file [3])])])] (-1) := by
  constructor
  · simp [wfTree, wfListing, nodupKeys]
  · exact C3_haystack_tolerance.1 ⟨[], false, [], [], false, false, "", ⟨"", "", 0, 0, 0⟩⟩ 100
      ("/s", FSTree.dir [("a", FSTree.file [1])])
      [("/t", FSTree.dir [("a", FSTree.file [1]), ("extra", FSTree.file [2]),
          ("xd", FSTree.dir [("y", FSTree.file [3])])])] (-1)
      (by simp [wfTree, wfListing, nodupKeys])

/-! ## Counter non-negativity -/

theorem applyUpd_nonneg (s : Stats) (u : Upd) (hs : nonnegStats s) (hu : u.safe) :
    nonnegStats (applyUpd s u) := by
  obtain ⟨h1, h2, h3, h4, h5⟩ := hs
  obtain ⟨g1, g2, g3, g4, g5, g6⟩ := hu
  unfold nonnegStats applyUpd
  rw [g6]
  refine ⟨by simpa using add_nonneg h1 g1, by simpa using add_nonneg h2 g2,
    by simpa using add_nonneg h3 g3, by simpa using add_nonneg h4 g4,
    by simpa using add_nonneg h5 g5⟩

theorem lockStates_nonneg_of_safe (es : List Event)
    (hsafe : ∀ u, Event.upd u ∈ es → u.safe) :
    ∀ s : Stats, nonnegStats s → ∀ s2 ∈ lockStates s es, nonnegStats s2 := by
  induction es with
  | nil =>
    intro s _ s2 h2
    exact absurd h2 (List.not_mem_nil _)
  | cons e rest ih =>
    intro s hs s2 h2
    cases e with
    | report r =>
      rw [lockStates_cons_report] at h2
      exact ih (fun u hu => hsafe u (List.mem_cons_of_mem _ hu)) s hs s2 h2
    | upd u =>
      have hu : u.safe := hsafe u (List.mem_cons_self _ _)
      have hnext := applyUpd_nonneg s u hs hu
      rw [lockStates_cons_upd] at h2
      rcases List.mem_cons.mp h2 with heq | h2'
      · rw [heq]
        exact hnext
      · exact ih (fun u2 hu2 => hsafe u2 (List.mem_cons_of_mem _ hu2)) _ hnext s2 h2'

theorem dMatchedOf_eq_length (outs : List (String × SearchOutcome)) :
    dMatchedOf outs = ((matchedOf outs).length : Int) := by
  induction outs with
  | nil => rfl
  | cons x rest ih =>
    obtain ⟨p, o⟩ := x
    cases o <;>
      simp [dMatchedOf, matchedOf, outcomeDeltas, List.filterMap_cons] at ih ⊢ <;>
      omega

theorem dMatchedOf_nonneg (outs : List (String × SearchOutcome)) : 0 ≤ dMatchedOf outs := by
  rw [dMatchedOf_eq_length]
  exact Int.ofNat_nonneg _

theorem dMismatchedOf_nonneg (outs : List (String × SearchOutcome)) :
    0 ≤ dMismatchedOf outs := by
  induction outs with
  | nil => simp [dMismatchedOf]
  | cons x rest ih =>
    obtain ⟨p, o⟩ := x
    cases o <;> simp [dMismatchedOf, outcomeDeltas] at ih ⊢ <;> omega

theorem dMissingOf_nonneg (outs : List (String × SearchOutcome)) : 0 ≤ dMissingOf outs := by
  induction outs with
  | nil => simp [dMissingOf]
  | cons x rest ih =>
    obtain ⟨p, o⟩ := x
    cases o <;> simp [dMissingOf, outcomeDeltas] at ih ⊢ <;> omega

theorem wrongHashPaths_length_le (c : Bytes) (mts : List (String × FSTree)) :
    ((wrongHashPaths c mts).length : Int) ≤ (mts.length : Int) := by
  unfold wrongHashPaths
  rw [List.length_map]
  exact_mod_cast List.length_filter_le _ mts

theorem upd_not_mem_searchReportEvents (b : Bool) (outs : List (String × SearchOutcome))
    (u : Upd) : Event.upd u ∉ searchReportEvents b outs := by
  intro h
  unfold searchReportEvents at h
  obtain ⟨r, _, hr⟩ := List.mem_map.mp h
  exact absurd hr (by simp)

theorem upd_not_mem_report_map {α : Type} (l : List α) (f : α → Report) (u : Upd) :
    Event.upd u ∉ l.map (fun x => Event.report (f x)) := by
  intro h
  obtain ⟨r, _, hr⟩ := List.mem_map.mp h
  exact absurd hr (by simp)

theorem ignoreUpd_safe (chunk : ℚ) : (ignoreUpd chunk).safe := by
  refine ⟨by simp [ignoreUpd], by simp [ignoreUpd], by simp [ignoreUpd],
    by simp [ignoreUpd], by simp [ignoreUpd], by simp [ignoreUpd]⟩

theorem pathUpd_safe (p : String) : (pathUpd p).safe := by
  refine ⟨by simp [pathUpd], by simp [pathUpd], by simp [pathUpd],
    by simp [pathUpd], by simp [pathUpd], by simp [pathUpd]⟩

theorem finishCallUpd_safe (x : ℚ) : (finishCallUpd x).safe := by
  refine ⟨by simp [finishCallUpd], by simp [finishCallUpd], by simp [finishCallUpd],
    by simp [finishCallUpd], by simp [finishCallUpd], by simp [finishCallUpd]⟩

theorem finishUpd_safe (chunk : ℚ) (m mm mi : Int) (hm : 0 ≤ m) (hmm : 0 ≤ mm)
    (hmi : 0 ≤ mi) : (finishUpd chunk m mm mi).safe := by
  refine ⟨by simpa [finishUpd] using hm, by simpa [finishUpd] using hmm,
    by simpa [finishUpd] using hmi, by simp [finishUpd], by simp [finishUpd],
    by simp [finishUpd]⟩

theorem mergeUpd_safe (outs : List (String × SearchOutcome)) : (mergeUpd outs).safe := by
  refine ⟨by simpa [mergeUpd] using dMatchedOf_nonneg outs,
    by simpa [mergeUpd] using dMismatchedOf_nonneg outs,
    by simpa [mergeUpd] using dMissingOf_nonneg outs,
    by simp [mergeUpd], by simp [mergeUpd], by simp [mergeUpd]⟩

theorem entryTail_safe (cfg : Config) (chunk : ℚ) (sub : FSTree)
    (outs : List (String × SearchOutcome)) (u : Upd)
    (hmem : Event.upd u ∈ entryTail cfg chunk sub outs) : u.safe := by
  unfold entryTail at hmem
  by_cases h : (!isDirE sub && !cfg.noData && !(matchedOf outs).isEmpty) = true
  · rw [if_pos h] at hmem
    rcases List.mem_append.mp hmem with h1 | h2
    · exact absurd h1 (upd_not_mem_report_map _ _ u)
    · have : u = finishUpd chunk
          (dMatchedOf outs - ((wrongHashPaths (contentOf sub) (matchedOf outs)).length : Int))
          (dMismatchedOf outs + ((wrongHashPaths (contentOf sub) (matchedOf outs)).length : Int))
          (dMissingOf outs) := by simpa using h2
      rw [this]
      refine finishUpd_safe _ _ _ _ ?_ ?_ (dMissingOf_nonneg outs)
      · have h1 := wrongHashPaths_length_le (contentOf sub) (matchedOf outs)
        have h2 := dMatchedOf_eq_length outs
        omega
      · have := dMismatchedOf_nonneg outs
        have : (0 : Int) ≤ ((wrongHashPaths (contentOf sub) (matchedOf outs)).length : Int) :=
          Int.ofNat_nonneg _
        omega
  · rw [if_neg h] at hmem
    have : u = finishUpd chunk (dMatchedOf outs) (dMismatchedOf outs) (dMissingOf outs) := by
      simpa using hmem
    rw [this]
    exact finishUpd_safe _ _ _ _ (dMatchedOf_nonneg outs) (dMismatchedOf_nonneg outs)
      (dMissingOf_nonneg outs)

theorem cmp_safe (n : Nat) :
    (∀ cfg pv (src : String × FSTree) tgts depth, sizeOf src.2 ≤ n →
        ∀ u, Event.upd u ∈ cmpDir cfg pv src tgts depth → u.safe)
  ∧ (∀ cfg (chunk : ℚ) srcPath (entries : Listing) tgts depth, sizeOf entries ≤ n →
        ∀ u, Event.upd u ∈ cmpEntries cfg chunk srcPath entries tgts depth → u.safe) := by
  induction n with
  | zero =>
    constructor
    · intro cfg pv src tgts depth h
      exact absurd h (by have := tree_sizeOf_pos src.2; omega)
    · intro cfg chunk srcPath entries tgts depth h
      exact absurd h (by have := list_sizeOf_pos entries; omega)
  | succ n ih =>
    constructor
    · intro cfg pv src tgts depth h u hu
      have hle : sizeOf (listOf src.2) ≤ n := by
        have := sizeOf_listOf_lt src.2; omega
      rw [cmpDir] at hu
      rcases List.mem_append.mp hu with h1 | h2
      · exact ih.2 cfg _ src.1 (listOf src.2) tgts depth hle u h1
      · have : u = finishCallUpd (splitProgressValue pv (listOf src.2).length).2 := by
          simpa using h2
        rw [this]
        exact finishCallUpd_safe _
    · intro cfg chunk srcPath entries tgts depth h u hu
      match entries with
      | [] => rw [cmpEntries] at hu; exact absurd hu (List.not_mem_nil _)
      | (name, sub) :: rest =>
        have hsub : sizeOf sub ≤ n := by
          have : sizeOf ((name, sub) :: rest) = 1 + (1 + sizeOf name + sizeOf sub) + sizeOf rest := by
            simp_arith
          omega
        have hrest : sizeOf rest ≤ n := by
          have : sizeOf ((name, sub) :: rest) = 1 + (1 + sizeOf name + sizeOf sub) + sizeOf rest := by
            simp_arith
          have := tree_sizeOf_pos sub
          omega
        rw [cmpEntries] at hu
        rcases List.mem_append.mp hu with h1 | h2
        · by_cases hig : entryIgnored cfg (pathJoin srcPath name) name sub
          · rw [if_pos hig] at h1
            have : u = ignoreUpd chunk := by simpa using h1
            rw [this]
            exact ignoreUpd_safe chunk
          · rw [if_neg hig] at h1
            by_cases hrec : recurseQ sub depth (searchOutcomes name (isDirE sub) tgts)
            · rw [if_pos hrec] at h1
              rcases List.mem_cons.mp h1 with heq | h1'
              · rw [show u = pathUpd (pathJoin srcPath name) by simpa using heq]
                exact pathUpd_safe _
              · rcases List.mem_append.mp h1' with ha | hb
                · rcases List.mem_append.mp ha with ha1 | ha2
                  · exact absurd ha1 (upd_not_mem_searchReportEvents _ _ u)
                  · exact ih.1 cfg chunk (pathJoin srcPath name, sub) _ (depth - 1) hsub u ha2
                · rw [show u = mergeUpd (searchOutcomes name (isDirE sub) tgts) by simpa using hb]
                  exact mergeUpd_safe _
            · rw [if_neg hrec] at h1
              rcases List.mem_cons.mp h1 with heq | h1'
              · rw [show u = pathUpd (pathJoin srcPath name) by simpa using heq]
                exact pathUpd_safe _
              · rcases List.mem_append.mp h1' with ha | hb
                · exact absurd ha (upd_not_mem_searchReportEvents _ _ u)
                · exact entryTail_safe cfg chunk sub _ u hb
        · exact ih.2 cfg chunk srcPath rest tgts depth hrest u h2

theorem useDBFinishUpd_safe (chunk : ℚ) (ds : Int × Int × Int) (h1 : 0 ≤ ds.1)
    (h2 : 0 ≤ ds.2.1) (h3 : 0 ≤ ds.2.2) : (useDBFinishUpd chunk ds).safe := by
  refine ⟨by simpa [useDBFinishUpd] using h1, by simp [useDBFinishUpd],
    by simpa [useDBFinishUpd] using h2, by simp [useDBFinishUpd],
    by simpa [useDBFinishUpd] using h3, by simp [useDBFinishUpd]⟩

theorem useDBFile_safe (cfg : Config) (fullName : String) (c : Bytes) (st : DBSt) :
    (∀ u : Upd, Event.upd u ∉ (useDBFile cfg fullName c st).1)
    ∧ 0 ≤ (useDBFile cfg fullName c st).2.1.1
    ∧ 0 ≤ (useDBFile cfg fullName c st).2.1.2.1
    ∧ 0 ≤ (useDBFile cfg fullName c st).2.1.2.2 := by
  unfold useDBFile
  by_cases hb : cfg.buildDB
  · rw [if_pos hb]
    cases hdb : ensureDBEntry st.db (cfg.entries.getD 1 "") (hashFile c) fullName with
    | mk db' wrote =>
      cases wrote <;>
        exact ⟨fun u h => absurd h (List.not_mem_nil _), by simp, by simp, by simp⟩
  · rw [if_neg hb]
    by_cases hc : cfg.checkDB
    · rw [if_pos hc]
      by_cases hhas : hasDBEntry st.db (cfg.entries.headD "") (hashFile c)
      · rw [if_pos hhas]
        exact ⟨fun u h => absurd h (List.not_mem_nil _), by simp, by simp, by simp⟩
      · rw [if_neg hhas]
        by_cases hcopy : cfg.copy ≠ ""
        · rw [if_pos hcopy]
          by_cases hsuf : findSuffix cfg.entries fullName = ""
          · rw [if_pos hsuf]
            exact ⟨fun u h => absurd h (List.not_mem_nil _), by simp, by simp, by simp⟩
          · rw [if_neg hsuf]
            cases hcf : copyFile st.dst c (cfg.copy ++ findSuffix cfg.entries fullName) with
            | error e =>
              exact ⟨fun u h => absurd h (List.not_mem_nil _), by simp, by simp, by simp⟩
            | ok dst' =>
              refine ⟨fun u h => ?_, by simp, by simp, by simp⟩
              simp at h
        · rw [if_neg hcopy]
          refine ⟨fun u h => ?_, by simp, by simp, by simp⟩
          simp at h
    · rw [if_neg hc]
      exact ⟨fun u h => absurd h (List.not_mem_nil _), by simp, by simp, by simp⟩

theorem useDB_safe (n : Nat) :
    (∀ cfg pv (dir : String × FSTree) depth st, sizeOf dir.2 ≤ n →
        ∀ u, Event.upd u ∈ (useDB cfg pv dir depth st).1 → u.safe)
  ∧ (∀ cfg (chunk : ℚ) dirPath (entries : Listing) depth st, sizeOf entries ≤ n →
        ∀ u, Event.upd u ∈ (useDBEntries cfg chunk dirPath entries depth st).1 → u.safe) := by
  induction n with
  | zero =>
    constructor
    · intro cfg pv dir depth st h
      exact absurd h (by have := tree_sizeOf_pos dir.2; omega)
    · intro cfg chunk dirPath entries depth st h
      exact absurd h (by have := list_sizeOf_pos entries; omega)
  | succ n ih =>
    constructor
    · intro cfg pv dir depth st h u hu
      have hle : sizeOf (listOf dir.2) ≤ n := by
        have := sizeOf_listOf_lt dir.2; omega
      rw [useDB] at hu
      cases hrun : useDBEntries cfg (splitProgressValue pv (listOf dir.2).length).1 dir.1
          (listOf dir.2) depth st with
      | mk evs rest2 =>
        cases rest2 with
        | mk st' r =>
          rw [hrun] at hu
          have hevs : ∀ u2, Event.upd u2 ∈ evs → u2.safe := by
            intro u2 hu2
            have h0 := ih.2 cfg (splitProgressValue pv (listOf dir.2).length).1 dir.1
              (listOf dir.2) depth st hle u2
            rw [hrun] at h0
            exact h0 hu2
          cases r with
          | ok =>
            replace hu : Event.upd u ∈ evs
                ++ [Event.upd (finishCallUpd (splitProgressValue pv (listOf dir.2).length).2)] := hu
            rcases List.mem_append.mp hu with h1 | h2
            · exact hevs u h1
            · rw [show u = finishCallUpd (splitProgressValue pv (listOf dir.2).length).2 by
                simpa using h2]
              exact finishCallUpd_safe _
          | fatal m =>
            replace hu : Event.upd u ∈ evs := hu
            exact hevs u hu
    · intro cfg chunk dirPath entries depth st h u hu
      match entries with
      | [] => rw [useDBEntries] at hu; exact absurd hu (List.not_mem_nil _)
      | (name, sub) :: rest =>
        have hsub : sizeOf sub ≤ n := by
          have : sizeOf ((name, sub) :: rest) = 1 + (1 + sizeOf name + sizeOf sub) + sizeOf rest := by
            simp_arith
          omega
        have hrest : sizeOf rest ≤ n := by
          have : sizeOf ((name, sub) :: rest) = 1 + (1 + sizeOf name + sizeOf sub) + sizeOf rest := by
            simp_arith
          have := tree_sizeOf_pos sub
          omega
        rw [useDBEntries] at hu
        by_cases h1 : entryIgnored cfg (pathJoin dirPath name) name sub
        · rw [if_pos h1] at hu
          replace hu : Event.upd u ∈ Event.upd (ignoreUpd chunk)
              :: (useDBEntries cfg chunk dirPath rest depth st).1 := hu
          rcases List.mem_cons.mp hu with heq | h2
          · rw [show u = ignoreUpd chunk by simpa using heq]
            exact ignoreUpd_safe chunk
          · exact ih.2 cfg chunk dirPath rest depth st hrest u h2
        · rw [if_neg h1] at hu
          by_cases h2 : (isDirE sub && (depth != 0)) = true
          · rw [if_pos h2] at hu
            cases hrec : useDB cfg chunk (pathJoin dirPath name, sub) (depth - 1) st with
            | mk evs rest2 =>
              cases rest2 with
              | mk st' r =>
                rw [hrec] at hu
                have hevs : ∀ u2, Event.upd u2 ∈ evs → u2.safe := by
                  intro u2 hu2
                  have h0 := ih.1 cfg chunk (pathJoin dirPath name, sub) (depth - 1) st hsub u2
                  rw [hrec] at h0
                  exact h0 hu2
                cases r with
                | ok =>
                  replace hu : Event.upd u ∈ Event.upd (pathUpd (pathJoin dirPath name))
                      :: evs ++ (useDBEntries cfg chunk dirPath rest depth st').1 := hu
                  rcases List.mem_cons.mp hu with heq | h3
                  · rw [show u = pathUpd (pathJoin dirPath name) by simpa using heq]
                    exact pathUpd_safe _
                  · rcases List.mem_append.mp h3 with ha | hb
                    · exact hevs u ha
                    · exact ih.2 cfg chunk dirPath rest depth st' hrest u hb
                | fatal m =>
                  replace hu : Event.upd u ∈ Event.upd (pathUpd (pathJoin dirPath name))
                      :: evs := hu
                  rcases List.mem_cons.mp hu with heq | h3
                  · rw [show u = pathUpd (pathJoin dirPath name) by simpa using heq]
                    exact pathUpd_safe _
                  · exact hevs u h3
          · rw [if_neg h2] at hu
            by_cases h3 : isDirE sub = true
            · rw [if_pos h3] at hu
              replace hu : Event.upd u ∈ Event.upd (pathUpd (pathJoin dirPath name))
                  :: Event.upd (useDBFinishUpd chunk (0, 0, 0))
                  :: (useDBEntries cfg chunk dirPath rest depth st).1 := hu
              rcases List.mem_cons.mp hu with heq | h4
              · rw [show u = pathUpd (pathJoin dirPath name) by simpa using heq]
                exact pathUpd_safe _
              · rcases List.mem_cons.mp h4 with heq2 | h5
                · rw [show u = useDBFinishUpd chunk (0, 0, 0) by simpa using heq2]
                  exact useDBFinishUpd_safe chunk (0, 0, 0) (by simp) (by simp) (by simp)
                · exact ih.2 cfg chunk dirPath rest depth st hrest u h5
            · rw [if_neg h3] at hu
              cases hfile : useDBFile cfg (pathJoin dirPath name) (contentOf sub) st with
              | mk fevs rest2 =>
                cases rest2 with
                | mk ds rest3 =>
                  cases rest3 with
                  | mk st' r =>
                    rw [hfile] at hu
                    have hfs := useDBFile_safe cfg (pathJoin dirPath name) (contentOf sub) st
                    rw [hfile] at hfs
                    cases r with
                    | ok =>
                      replace hu : Event.upd u ∈ Event.upd (pathUpd (pathJoin dirPath name))
                          :: fevs ++ Event.upd (useDBFinishUpd chunk ds)
                          :: (useDBEntries cfg chunk dirPath rest depth st').1 := hu
                      rcases List.mem_cons.mp hu with heq | h4
                      · rw [show u = pathUpd (pathJoin dirPath name) by simpa using heq]
                        exact pathUpd_safe _
                      · rcases List.mem_append.mp h4 with ha | hb
                        · exact absurd ha (hfs.1 u)
                        · rcases List.mem_cons.mp hb with heq2 | h5
                          · rw [show u = useDBFinishUpd chunk ds by simpa using heq2]
                            exact useDBFinishUpd_safe chunk ds hfs.2.1 hfs.2.2.1 hfs.2.2.2
                          · exact ih.2 cfg chunk dirPath rest depth st' hrest u h5
                    | fatal m =>
                      replace hu : Event.upd u ∈ Event.upd (pathUpd (pathJoin dirPath name))
                          :: fevs := hu
                      rcases List.mem_cons.mp hu with heq | h4
                      · rw [show u = pathUpd (pathJoin dirPath name) by simpa using heq]
                        exact pathUpd_safe _
                      · exact absurd h4 (hfs.1 u)

theorem dd_safe (n : Nat) :
    (∀ cfg pv (dir : String × FSTree) depth hashes, sizeOf dir.2 ≤ n →
        ∀ u, Event.upd u ∈ (deleteDupes cfg pv dir depth hashes).1 → u.safe)
  ∧ (∀ cfg (chunk : ℚ) dirPath (entries : Listing) depth hashes, sizeOf entries ≤ n →
        ∀ u, Event.upd u ∈ (ddEntries cfg chunk dirPath entries depth hashes).1 → u.safe) := by
  induction n with
  | zero =>
    constructor
    · intro cfg pv dir depth hashes h
      exact absurd h (by have := tree_sizeOf_pos dir.2; omega)
    · intro cfg chunk dirPath entries depth hashes h
      exact absurd h (by have := list_sizeOf_pos entries; omega)
  | succ n ih =>
    constructor
    · intro cfg pv dir depth hashes h u hu
      have hle : sizeOf (listOf dir.2) ≤ n := by
        have := sizeOf_listOf_lt dir.2; omega
      rw [deleteDupes] at hu
      replace hu : Event.upd u
          ∈ (ddEntries cfg (splitProgressValue pv (listOf dir.2).length).1 dir.1
              (listOf dir.2) depth hashes).1
            ++ [Event.upd (finishCallUpd (splitProgressValue pv (listOf dir.2).length).2)] := hu
      rcases List.mem_append.mp hu with h1 | h2
      · exact ih.2 cfg _ dir.1 (listOf dir.2) depth hashes hle u h1
      · rw [show u = finishCallUpd (splitProgressValue pv (listOf dir.2).length).2 by
          simpa using h2]
        exact finishCallUpd_safe _
    · intro cfg chunk dirPath entries depth hashes h u hu
      match entries with
      | [] => rw [ddEntries] at hu; exact absurd hu (List.not_mem_nil _)
      | (name, sub) :: rest =>
        have hsub : sizeOf sub ≤ n := by
          have : sizeOf ((name, sub) :: rest) = 1 + (1 + sizeOf name + sizeOf sub) + sizeOf rest := by
            simp_arith
          omega
        have hrest : sizeOf rest ≤ n := by
          have : sizeOf ((name, sub) :: rest) = 1 + (1 + sizeOf name + sizeOf sub) + sizeOf rest := by
            simp_arith
          have := tree_sizeOf_pos sub
          omega
        rw [ddEntries] at hu
        by_cases h1 : entryIgnored cfg (pathJoin dirPath name) name sub
        · rw [if_pos h1] at hu
          replace hu : Event.upd u ∈ Event.upd (ignoreUpd chunk)
              :: (ddEntries cfg chunk dirPath rest depth hashes).1 := hu
          rcases List.mem_cons.mp hu with heq | h2
          · rw [show u = ignoreUpd chunk by simpa using heq]
            exact ignoreUpd_safe chunk
          · exact ih.2 cfg chunk dirPath rest depth hashes hrest u h2
        · rw [if_neg h1] at hu
          by_cases h2 : (isDirE sub && (depth != 0)) = true
          · rw [if_pos h2] at hu
            replace hu : Event.upd u ∈ Event.upd (pathUpd (pathJoin dirPath name))
                :: (deleteDupes cfg chunk (pathJoin dirPath name, sub) (depth - 1) hashes).1
                ++ (ddEntries cfg chunk dirPath rest depth
                    (deleteDupes cfg chunk (pathJoin dirPath name, sub) (depth - 1) hashes).2.2).1 := hu
            rcases List.mem_cons.mp hu with heq | h3
            · rw [show u = pathUpd (pathJoin dirPath name) by simpa using heq]
              exact pathUpd_safe _
            · rcases List.mem_append.mp h3 with ha | hb
              · exact ih.1 cfg chunk (pathJoin dirPath name, sub) (depth - 1) hashes hsub u ha
              · exact ih.2 cfg chunk dirPath rest depth _ hrest u hb
          · rw [if_neg h2] at hu
            by_cases h3 : isDirE sub = true
            · rw [if_pos h3] at hu
              replace hu : Event.upd u ∈ Event.upd (pathUpd (pathJoin dirPath name))
                  :: Event.upd (finishUpd chunk 0 0 0)
                  :: (ddEntries cfg chunk dirPath rest depth hashes).1 := hu
              rcases List.mem_cons.mp hu with heq | h4
              · rw [show u = pathUpd (pathJoin dirPath name) by simpa using heq]
                exact pathUpd_safe _
              · rcases List.mem_cons.mp h4 with heq2 | h5
                · rw [show u = finishUpd chunk 0 0 0 by simpa using heq2]
                  exact finishUpd_safe _ _ _ _ (by simp) (by simp) (by simp)
                · exact ih.2 cfg chunk dirPath rest depth hashes hrest u h5
            · rw [if_neg h3] at hu
              by_cases h4 : hashes.contains (hashFile (contentOf sub)) = true
              · rw [if_pos h4] at hu
                replace hu : Event.upd u ∈ Event.upd (pathUpd (pathJoin dirPath name))
                    :: Event.upd (finishUpd chunk 1 0 0)
                    :: (ddEntries cfg chunk dirPath rest depth hashes).1 := hu
                rcases List.mem_cons.mp hu with heq | h5
                · rw [show u = pathUpd (pathJoin dirPath name) by simpa using heq]
                  exact pathUpd_safe _
                · rcases List.mem_cons.mp h5 with heq2 | h6
                  · rw [show u = finishUpd chunk 1 0 0 by simpa using heq2]
                    exact finishUpd_safe _ _ _ _ (by simp) (by simp) (by simp)
                  · exact ih.2 cfg chunk dirPath rest depth hashes hrest u h6
              · rw [if_neg h4] at hu
                replace hu : Event.upd u ∈ Event.upd (pathUpd (pathJoin dirPath name))
                    :: Event.upd (finishUpd chunk 0 1 0)
                    :: (ddEntries cfg chunk dirPath rest depth
                        (hashFile (contentOf sub) :: hashes)).1 := hu
                rcases List.mem_cons.mp hu with heq | h5
                · rw [show u = pathUpd (pathJoin dirPath name) by simpa using heq]
                  exact pathUpd_safe _
                · rcases List.mem_cons.mp h5 with heq2 | h6
                  · rw [show u = finishUpd chunk 0 1 0 by simpa using heq2]
                    exact finishUpd_safe _ _ _ _ (by simp) (by simp) (by simp)
                  · exact ih.2 cfg chunk dirPath rest depth
                      (hashFile (contentOf sub) :: hashes) hrest u h6

theorem length_filter_mono {α : Type} (l : List α) (p q : α → Bool)
    (h : ∀ x, p x = true → q x = true) :
    (l.filter p).length ≤ (l.filter q).length := by
  induction l with
  | nil => simp
  | cons a rest ih =>
    by_cases hp : p a = true
    · rw [List.filter_cons_of_pos hp, List.filter_cons_of_pos (h a hp)]
      simpa using ih
    · rw [List.filter_cons_of_neg (by simpa using hp)]
      by_cases hq : q a = true
      · rw [List.filter_cons_of_pos hq]
        simp only [List.length_cons]
        omega
      · rw [List.filter_cons_of_neg (by simpa using hq)]
        exact ih

theorem filter_not_insert (found : List String) (name : String) (hnf : name ∉ found) :
    ∀ expected : List String, name ∈ expected →
      (expected.filter (fun x => !((name :: found).contains x))).length + 1
        ≤ (expected.filter (fun x => !(found.contains x))).length := by
  intro expected
  induction expected with
  | nil => intro h; exact absurd h (List.not_mem_nil _)
  | cons y rest ih =>
    intro hexp
    by_cases hy : y = name
    · subst hy
      have e1 : (y :: rest).filter (fun x => !((y :: found).contains x))
          = rest.filter (fun x => !((y :: found).contains x)) :=
        List.filter_cons_of_neg (by simp)
      have e2 : (y :: rest).filter (fun x => !(found.contains x))
          = y :: rest.filter (fun x => !(found.contains x)) :=
        List.filter_cons_of_pos (by simpa using hnf)
      rw [e1, e2]
      have hmono := length_filter_mono rest (fun x => !((y :: found).contains x))
        (fun x => !(found.contains x)) ?_
      · simp only [List.length_cons]
        omega
      · intro x hx
        simp only [Bool.not_eq_true', List.contains_cons] at hx ⊢
        rcases Bool.or_eq_false_iff.mp hx with ⟨_, h2⟩
        exact h2
    · have hbeq : (y == name) = false := beq_eq_false_iff_ne.mpr hy
      have hcond : (!((name :: found).contains y)) = (!(found.contains y)) := by
        rw [List.contains_cons, hbeq]
        simp
      have hname : name ∈ rest := by
        rcases List.mem_cons.mp hexp with heq | hr
        · exact absurd heq.symm hy
        · exact hr
      by_cases hfy : (!(found.contains y)) = true
      · have e1 : (y :: rest).filter (fun x => !((name :: found).contains x))
            = y :: rest.filter (fun x => !((name :: found).contains x)) :=
          List.filter_cons_of_pos (by rw [hcond]; exact hfy)
        have e2 : (y :: rest).filter (fun x => !(found.contains x))
            = y :: rest.filter (fun x => !(found.contains x)) :=
          List.filter_cons_of_pos hfy
        rw [e1, e2]
        simp only [List.length_cons]
        have := ih hname
        omega
      · have e1 : (y :: rest).filter (fun x => !((name :: found).contains x))
            = rest.filter (fun x => !((name :: found).contains x)) :=
          List.filter_cons_of_neg (by rw [hcond]; exact hfy)
        have e2 : (y :: rest).filter (fun x => !(found.contains x))
            = rest.filter (fun x => !(found.contains x)) :=
          List.filter_cons_of_neg hfy
        rw [e1, e2]
        exact ih hname

theorem lockStates_report_map {α : Type} (l : List α) (f : α → Report) (s : Stats) :
    lockStates s (l.map (fun x => Event.report (f x))) = [] := by
  induction l with
  | nil => rfl
  | cons a rest ih => simpa using ih

theorem applyEvents_report_map {α : Type} (l : List α) (f : α → Report) (s : Stats) :
    applyEvents s (l.map (fun x => Event.report (f x))) = s := by
  induction l with
  | nil => rfl
  | cons a rest ih => simpa using ih

theorem markFound_cases (sub : FSTree) (name : String) (expected found : List String)
    (hnf : name ∉ found) :
    markFound sub name expected found = found
    ∨ (markFound sub name expected found = name :: found ∧ name ∈ expected) := by
  unfold markFound
  by_cases hc : (!isDirE sub && expected.contains name) = true
  · rw [if_pos hc]
    right
    constructor
    · unfold insertStr
      rw [if_neg hnf]
    · rw [Bool.and_eq_true] at hc
      simpa using hc.2
  · rw [if_neg hc]
    left
    rfl

theorem gapScan_nil_fst (chunk : ℚ) (dirPath : String) (expected found : List String) :
    (gapScan chunk dirPath [] expected found).1 = [] := by
  rw [gapScan]

theorem gapScan_cons_fst (chunk : ℚ) (dirPath : String) (name : String) (sub : FSTree)
    (rest : Listing) (expected found : List String) :
    (gapScan chunk dirPath ((name, sub) :: rest) expected found).1
      = Event.upd (gapUpd (pathJoin dirPath name) chunk
            ((markFound sub name expected found).contains name))
        :: (gapScan chunk dirPath rest expected (markFound sub name expected found)).1 := by
  rw [gapScan]

theorem gapScan_states (chunk : ℚ) (dirPath : String) (expected : List String) :
    ∀ (entries : Listing) (found : List String) (s : Stats),
      nodupKeys entries = true →
      (∀ p ∈ entries, p.1 ∉ found) →
      (∀ s2 ∈ lockStates s (gapScan chunk dirPath entries expected found).1,
          s.matched ≤ s2.matched ∧ s2.mismatched = s.mismatched ∧ s2.ignored = s.ignored
            ∧ s2.copied = s.copied
            ∧ s.missing - ((expected.filter (fun x => !(found.contains x))).length : Int)
                ≤ s2.missing)
      ∧ (s.matched ≤ (applyEvents s (gapScan chunk dirPath entries expected found).1).matched
         ∧ (applyEvents s (gapScan chunk dirPath entries expected found).1).mismatched
             = s.mismatched
         ∧ (applyEvents s (gapScan chunk dirPath entries expected found).1).ignored = s.ignored
         ∧ (applyEvents s (gapScan chunk dirPath entries expected found).1).copied = s.copied
         ∧ s.missing - ((expected.filter (fun x => !(found.contains x))).length : Int)
             ≤ (applyEvents s (gapScan chunk dirPath entries expected found).1).missing) := by
  intro entries
  induction entries with
  | nil =>
    intro found s _ _
    constructor
    · intro s2 h2
      rw [gapScan_nil_fst, lockStates_nil] at h2
      exact absurd h2 (List.not_mem_nil _)
    · rw [gapScan_nil_fst, applyEvents_nil]
      refine ⟨le_refl _, rfl, rfl, rfl, ?_⟩
      omega
  | cons e rest ih =>
    obtain ⟨name, sub⟩ := e
    intro found s hnd hdisj
    rw [nodupKeys, Bool.and_eq_true] at hnd
    obtain ⟨hnd1, hnd2⟩ := hnd
    have hnameNotFound : name ∉ found := hdisj (name, sub) (List.mem_cons_self _ _)
    have hdisjRest : ∀ p ∈ rest, p.1 ∉ found :=
      fun p hp => hdisj p (List.mem_cons_of_mem _ hp)
    have hpne : ∀ p ∈ rest, p.1 ≠ name := by
      intro p hp
      intro hcon
      have hb : (p.1 == name) = true := by
        rw [hcon]
        simp
      have : rest.any (fun q => q.1 == name) = true := List.any_eq_true.mpr ⟨p, hp, hb⟩
      have hfalse : rest.any (fun q => q.1 == name) = false := by simpa using hnd1
      rw [this] at hfalse
      exact absurd hfalse (by simp)
    rcases markFound_cases sub name expected found hnameNotFound with hm | ⟨hm, hexp⟩
    · -- the entry is not marked: no decrement of missing, no increment of matched
      have hdec : (markFound sub name expected found).contains name = false := by
        rw [hm]
        simpa using hnameNotFound
      have hdisj2 : ∀ p ∈ rest, p.1 ∉ markFound sub name expected found := by
        rw [hm]
        exact hdisjRest
      have hrest := ih (markFound sub name expected found) (applyUpd s
        (gapUpd (pathJoin dirPath name) chunk
          ((markFound sub name expected found).contains name))) hnd2 hdisj2
      have hsm : (applyUpd s (gapUpd (pathJoin dirPath name) chunk
          ((markFound sub name expected found).contains name))).matched = s.matched := by
        rw [hdec]
        simp [applyUpd, gapUpd]
      have hsmm : (applyUpd s (gapUpd (pathJoin dirPath name) chunk
          ((markFound sub name expected found).contains name))).mismatched
          = s.mismatched := by
        simp [applyUpd, gapUpd]
      have hsi : (applyUpd s (gapUpd (pathJoin dirPath name) chunk
          ((markFound sub name expected found).contains name))).ignored = s.ignored := by
        simp [applyUpd, gapUpd]
      have hsc : (applyUpd s (gapUpd (pathJoin dirPath name) chunk
          ((markFound sub name expected found).contains name))).copied = s.copied := by
        simp [applyUpd, gapUpd]
      have hsmiss : (applyUpd s (gapUpd (pathJoin dirPath name) chunk
          ((markFound sub name expected found).contains name))).missing = s.missing := by
        rw [hdec]
        simp [applyUpd, gapUpd]
      rw [hm] at hrest hsm hsmm hsi hsc hsmiss
      constructor
      · intro s2 h2
        rw [gapScan_cons_fst, hm, lockStates_cons_upd] at h2
        rcases List.mem_cons.mp h2 with heq | h3
        · subst heq
          refine ⟨le_of_eq hsm.symm, hsmm, hsi, hsc, ?_⟩
          rw [hsmiss]
          omega
        · obtain ⟨hb1, hb2, hb3, hb4, hb5⟩ := hrest.1 s2 h3
          rw [hsm] at hb1
          rw [hsmm] at hb2
          rw [hsi] at hb3
          rw [hsc] at hb4
          rw [hsmiss] at hb5
          exact ⟨hb1, hb2, hb3, hb4, hb5⟩
      · rw [gapScan_cons_fst, hm, applyEvents_cons_upd]
        obtain ⟨hb1, hb2, hb3, hb4, hb5⟩ := hrest.2
        rw [hsm] at hb1
        rw [hsmm] at hb2
        rw [hsi] at hb3
        rw [hsc] at hb4
        rw [hsmiss] at hb5
        exact ⟨hb1, hb2, hb3, hb4, hb5⟩
    · -- the entry is marked found: matched goes up one, missing down one
      have hdec : (markFound sub name expected found).contains name = true := by
        rw [hm]
        simp [List.contains_cons]
      have hdisj2 : ∀ p ∈ rest, p.1 ∉ markFound sub name expected found := by
        rw [hm]
        intro p hp hcon
        rcases List.mem_cons.mp hcon with heq | hmem
        · exact hpne p hp heq
        · exact hdisjRest p hp hmem
      have hrest := ih (markFound sub name expected found) (applyUpd s
        (gapUpd (pathJoin dirPath name) chunk
          ((markFound sub name expected found).contains name))) hnd2 hdisj2
      have hsm : (applyUpd s (gapUpd (pathJoin dirPath name) chunk
          ((markFound sub name expected found).contains name))).matched
          = s.matched + 1 := by
        rw [hdec]
        simp [applyUpd, gapUpd]
      have hsmm : (applyUpd s (gapUpd (pathJoin dirPath name) chunk
          ((markFound sub name expected found).contains name))).mismatched
          = s.mismatched := by
        simp [applyUpd, gapUpd]
      have hsi : (applyUpd s (gapUpd (pathJoin dirPath name) chunk
          ((markFound sub name expected found).contains name))).ignored = s.ignored := by
        simp [applyUpd, gapUpd]
      have hsc : (applyUpd s (gapUpd (pathJoin dirPath name) chunk
          ((markFound sub name expected found).contains name))).copied = s.copied := by
        simp [applyUpd, gapUpd]
      have hsmiss : (applyUpd s (gapUpd (pathJoin dirPath name) chunk
          ((markFound sub name expected found).contains name))).missing
          = s.missing - 1 := by
        rw [hdec]
        simp [applyUpd, gapUpd, sub_eq_add_neg]
      have hbudget := filter_not_insert found name hnameNotFound expected hexp
      rw [hm] at hrest hsm hsmm hsi hsc hsmiss
      constructor
      · intro s2 h2
        rw [gapScan_cons_fst, hm, lockStates_cons_upd] at h2
        rcases List.mem_cons.mp h2 with heq | h3
        · subst heq
          refine ⟨by rw [hsm]; omega, hsmm, hsi, hsc, ?_⟩
          rw [hsmiss]
          omega
        · obtain ⟨hb1, hb2, hb3, hb4, hb5⟩ := hrest.1 s2 h3
          rw [hsm] at hb1
          rw [hsmm] at hb2
          rw [hsi] at hb3
          rw [hsc] at hb4
          rw [hsmiss] at hb5
          refine ⟨by omega, hb2, hb3, hb4, ?_⟩
          omega
      · rw [gapScan_cons_fst, hm, applyEvents_cons_upd]
        obtain ⟨hb1, hb2, hb3, hb4, hb5⟩ := hrest.2
        rw [hsm] at hb1
        rw [hsmm] at hb2
        rw [hsi] at hb3
        rw [hsc] at hb4
        rw [hsmiss] at hb5
        refine ⟨by omega, hb2, hb3, hb4, ?_⟩
        omega

theorem filter_contains_nil_str (expected : List String) :
    expected.filter (fun x => !(([] : List String).contains x)) = expected := by
  induction expected with
  | nil => rfl
  | cons y rest ih => simp [List.filter_cons, ih]

theorem gapDir_states (chunk : ℚ) (d : String × FSTree) (expected : List String)
    (hnd : nodupKeys (listOf d.2) = true) (s : Stats) :
    (∀ s2 ∈ lockStates s (gapDir chunk d expected),
        s.matched ≤ s2.matched ∧ s2.mismatched = s.mismatched ∧ s2.ignored = s.ignored
          ∧ s2.copied = s.copied
          ∧ s.missing - (expected.length : Int) ≤ s2.missing)
    ∧ (s.matched ≤ (applyEvents s (gapDir chunk d expected)).matched
       ∧ (applyEvents s (gapDir chunk d expected)).mismatched = s.mismatched
       ∧ (applyEvents s (gapDir chunk d expected)).ignored = s.ignored
       ∧ (applyEvents s (gapDir chunk d expected)).copied = s.copied
       ∧ s.missing - (expected.length : Int)
           ≤ (applyEvents s (gapDir chunk d expected)).missing) := by
  have hmain := gapScan_states chunk d.1 expected (listOf d.2) [] s hnd
    (by intro p _; exact List.not_mem_nil _)
  rw [filter_contains_nil_str] at hmain
  constructor
  · intro s2 h2
    rw [gapDir, lockStates_append] at h2
    rcases List.mem_append.mp h2 with h3 | h3
    · exact hmain.1 s2 h3
    · rw [lockStates_report_map] at h3
      exact absurd h3 (List.not_mem_nil _)
  · rw [gapDir, applyEvents_append, applyEvents_report_map]
    exact hmain.2

theorem gapDirs_states (chunk : ℚ) (expected : List String) :
    ∀ (dirs : List (String × FSTree)) (s : Stats),
      (∀ d ∈ dirs, nodupKeys (listOf d.2) = true) →
      0 ≤ s.matched → 0 ≤ s.mismatched → 0 ≤ s.ignored → 0 ≤ s.copied →
      (dirs.length : Int) * (expected.length : Int) ≤ s.missing →
      (∀ s2 ∈ lockStates s ((dirs.map (fun d => gapDir chunk d expected)).flatten),
          nonnegStats s2)
      ∧ (s.matched
           ≤ (applyEvents s ((dirs.map (fun d => gapDir chunk d expected)).flatten)).matched
         ∧ (applyEvents s ((dirs.map (fun d => gapDir chunk d expected)).flatten)).mismatched
             = s.mismatched
         ∧ (applyEvents s ((dirs.map (fun d => gapDir chunk d expected)).flatten)).ignored
             = s.ignored
         ∧ (applyEvents s ((dirs.map (fun d => gapDir chunk d expected)).flatten)).copied
             = s.copied
         ∧ s.missing - (dirs.length : Int) * (expected.length : Int)
             ≤ (applyEvents s ((dirs.map (fun d => gapDir chunk d expected)).flatten)).missing) := by
  intro dirs
  induction dirs with
  | nil =>
    intro s _ hm hmm hi hc hmiss
    rw [List.map_nil, List.flatten_nil]
    constructor
    · intro s2 h2
      rw [lockStates_nil] at h2
      exact absurd h2 (List.not_mem_nil _)
    · rw [applyEvents_nil]
      refine ⟨le_refl _, rfl, rfl, rfl, ?_⟩
      simp
  | cons d rest ih =>
    intro s hwf hm hmm hi hc hmiss
    have hdir := gapDir_states chunk d expected (hwf d (List.mem_cons_self _ _)) s
    have hwfRest : ∀ e ∈ rest, nodupKeys (listOf e.2) = true :=
      fun e he => hwf e (List.mem_cons_of_mem _ he)
    have hprod : (0 : Int) ≤ (rest.length : Int) * (expected.length : Int) :=
      mul_nonneg (Int.ofNat_nonneg _) (Int.ofNat_nonneg _)
    have hlen : ((d :: rest).length : Int) * (expected.length : Int)
        = (rest.length : Int) * (expected.length : Int) + (expected.length : Int) := by
      push_cast [List.length_cons]
      ring
    rw [hlen] at hmiss
    obtain ⟨hf1, hf2, hf3, hf4, hf5⟩ := hdir.2
    have hih := ih (applyEvents s (gapDir chunk d expected)) hwfRest
      (le_trans hm hf1) (hf2 ▸ hmm) (hf3 ▸ hi) (hf4 ▸ hc) (by omega)
    constructor
    · intro s2 h2
      rw [List.map_cons, List.flatten_cons, lockStates_append] at h2
      rcases List.mem_append.mp h2 with h3 | h3
      · obtain ⟨hb1, hb2, hb3, hb4, hb5⟩ := hdir.1 s2 h3
        exact ⟨by omega, by omega, by omega, by omega, by omega⟩
      · exact hih.1 s2 h3
    · rw [List.map_cons, List.flatten_cons, applyEvents_append]
      obtain ⟨hg1, hg2, hg3, hg4, hg5⟩ := hih.2
      rw [hlen]
      exact ⟨by omega, by omega, by omega, by omega, by omega⟩

theorem sum_length_singleton {α β : Type} (f : α → β) (l : List α) :
    (List.map (List.length ∘ fun a => [f a]) l).sum = l.length := by
  induction l with
  | nil => rfl
  | cons x xs ih =>
    simp [ih]
    omega

theorem expectedNames_length (g : GapOpts) (hb : g.begin ≤ g.stop) :
    ((expectedNames g).length : Int) = g.stop - g.begin + 1 := by
  have h : (expectedNames g).length = (g.stop + 1 - g.begin).toNat := by
    simp [expectedNames, seqRange, sum_length_singleton]
  rw [h]
  omega

theorem findGaps_nonneg (cfg : Config) (pv : ℚ) (dirs : List (String × FSTree))
    (hb : cfg.gapOpts.begin ≤ cfg.gapOpts.stop)
    (hwf : ∀ d ∈ dirs, nodupKeys (listOf d.2) = true) :
    ∀ s2 ∈ lockStates Stats.init (findGaps cfg pv dirs), nonnegStats s2 := by
  intro s2 h2
  rw [findGaps, lockStates_append, lockStates_cons_upd, applyEvents_cons_upd,
    lockStates_cons_upd, lockStates_nil] at h2
  have hR := expectedNames_length cfg.gapOpts hb
  have hs1m : (applyUpd Stats.init (gapSeedUpd
      ((dirs.length : Int) * (cfg.gapOpts.stop - cfg.gapOpts.begin + 1)))).matched = 0 := by
    simp [applyUpd, gapSeedUpd, Stats.init]
  have hs1mm : (applyUpd Stats.init (gapSeedUpd
      ((dirs.length : Int) * (cfg.gapOpts.stop - cfg.gapOpts.begin + 1)))).mismatched = 0 := by
    simp [applyUpd, gapSeedUpd, Stats.init]
  have hs1i : (applyUpd Stats.init (gapSeedUpd
      ((dirs.length : Int) * (cfg.gapOpts.stop - cfg.gapOpts.begin + 1)))).ignored = 0 := by
    simp [applyUpd, gapSeedUpd, Stats.init]
  have hs1c : (applyUpd Stats.init (gapSeedUpd
      ((dirs.length : Int) * (cfg.gapOpts.stop - cfg.gapOpts.begin + 1)))).copied = 0 := by
    simp [applyUpd, gapSeedUpd, Stats.init]
  have hs1miss : (applyUpd Stats.init (gapSeedUpd
      ((dirs.length : Int) * (cfg.gapOpts.stop - cfg.gapOpts.begin + 1)))).missing
      = (dirs.length : Int) * (cfg.gapOpts.stop - cfg.gapOpts.begin + 1) := by
    simp [applyUpd, gapSeedUpd, Stats.init]
  have hseed : (dirs.length : Int) * ((expectedNames cfg.gapOpts).length : Int)
      ≤ (applyUpd Stats.init (gapSeedUpd
          ((dirs.length : Int) * (cfg.gapOpts.stop - cfg.gapOpts.begin + 1)))).missing := by
    rw [hs1miss, hR]
  have hdirs := gapDirs_states
    (splitProgressValue pv ((dirs.map (fun d => (listOf d.2).length)).sum)).1
    (expectedNames cfg.gapOpts) dirs
    (applyUpd Stats.init (gapSeedUpd
      ((dirs.length : Int) * (cfg.gapOpts.stop - cfg.gapOpts.begin + 1))))
    hwf (le_of_eq hs1m.symm) (le_of_eq hs1mm.symm) (le_of_eq hs1i.symm)
    (le_of_eq hs1c.symm) hseed
  rcases List.mem_append.mp h2 with h3 | h4
  · rcases List.mem_cons.mp h3 with heq | h5
    · subst heq
      have hRnn : (0 : Int)
          ≤ (dirs.length : Int) * (cfg.gapOpts.stop - cfg.gapOpts.begin + 1) := by
        have h1 : (0 : Int) ≤ (dirs.length : Int) := Int.ofNat_nonneg _
        have h2 : (0 : Int) ≤ cfg.gapOpts.stop - cfg.gapOpts.begin + 1 := by omega
        exact mul_nonneg h1 h2
      refine ⟨le_of_eq hs1m.symm, le_of_eq hs1mm.symm, ?_, le_of_eq hs1i.symm,
        le_of_eq hs1c.symm⟩
      rw [hs1miss]
      exact hRnn
    · exact hdirs.1 s2 h5
  · rcases List.mem_cons.mp h4 with heq | h5
    · subst heq
      obtain ⟨hg1, hg2, hg3, hg4, hg5⟩ := hdirs.2
      have hfm : ∀ t : Stats, ∀ e : ℚ, (applyUpd t (finishCallUpd e)).matched = t.matched := by
        intro t e
        simp [applyUpd, finishCallUpd]
      have hfmm : ∀ t : Stats, ∀ e : ℚ,
          (applyUpd t (finishCallUpd e)).mismatched = t.mismatched := by
        intro t e
        simp [applyUpd, finishCallUpd]
      have hfi : ∀ t : Stats, ∀ e : ℚ, (applyUpd t (finishCallUpd e)).ignored = t.ignored := by
        intro t e
        simp [applyUpd, finishCallUpd]
      have hfc : ∀ t : Stats, ∀ e : ℚ, (applyUpd t (finishCallUpd e)).copied = t.copied := by
        intro t e
        simp [applyUpd, finishCallUpd]
      have hfmiss : ∀ t : Stats, ∀ e : ℚ,
          (applyUpd t (finishCallUpd e)).missing = t.missing := by
        intro t e
        simp [applyUpd, finishCallUpd]
      have hRmul : (0 : Int)
          ≤ (dirs.length : Int) * ((expectedNames cfg.gapOpts).length : Int) :=
        mul_nonneg (Int.ofNat_nonneg _) (Int.ofNat_nonneg _)
      refine ⟨?_, ?_, ?_, ?_, ?_⟩
      · rw [hfm]
        omega
      · rw [hfmm, hg2, hs1mm]
      · rw [hfmiss]
        rw [hs1m] at hg1
        rw [hs1miss] at hg5
        omega
      · rw [hfi, hg3, hs1i]
      · rw [hfc, hg4, hs1c]
    · exact absurd h5 (List.not_mem_nil _)

/-- C10: counter non-negativity — in every mode, at every release of the
stats lock, the counters matched, mismatched, missing, ignored and copied are
all non-negative: every locked update of `compareDir`, `useDB` (build and
check) and `deleteDupes` only adds non-negative deltas (the wrong-hash
decrement of the match delta only cancels the presence match added for that
very target path inside the same locked block), and in `findGaps` — under
the claim's own precondition `rangeBegin ≤ rangeEnd`, with every directory
listing carrying pairwise-distinct names, as any real directory listing
does — the missing counter, seeded to directoryCount × rangeSize, is
decremented at most once per expected name per directory. -/
theorem C10_counter_nonneg (cfg : Config) (pv : ℚ)
    (src : String × FSTree) (tgts : List (String × FSTree))
    (dir : String × FSTree) (depth : Int) (st : DBSt) (hashes : List Bytes)
    (dirs : List (String × FSTree))
    (hb : cfg.gapOpts.begin ≤ cfg.gapOpts.stop)
    (hwf : ∀ d ∈ dirs, nodupKeys (listOf d.2) = true) :
    (∀ s2 ∈ lockStates Stats.init (cmpDir cfg pv src tgts depth), nonnegStats s2)
    ∧ (∀ s2 ∈ lockStates Stats.init (useDB cfg pv dir depth st).1, nonnegStats s2)
    ∧ (∀ s2 ∈ lockStates Stats.init (deleteDupes cfg pv dir depth hashes).1, nonnegStats s2)
    ∧ (∀ s2 ∈ lockStates Stats.init (findGaps cfg pv dirs), nonnegStats s2) := by
  have hinit : nonnegStats Stats.init :=
    ⟨le_refl _, le_refl _, le_refl _, le_refl _, le_refl _⟩
  refine ⟨?_, ?_, ?_, ?_⟩
  · exact lockStates_nonneg_of_safe _ (fun u hu =>
      (cmp_safe (sizeOf src.2)).1 cfg pv src tgts depth (le_refl _) u hu) Stats.init hinit
  · exact lockStates_nonneg_of_safe _ (fun u hu =>
      (useDB_safe (sizeOf dir.2)).1 cfg pv dir depth st (le_refl _) u hu) Stats.init hinit
  · exact lockStates_nonneg_of_safe _ (fun u hu =>
      (dd_safe (sizeOf dir.2)).1 cfg pv dir depth hashes (le_refl _) u hu) Stats.init hinit
  · exact findGaps_nonneg cfg pv dirs hb hwf

/-- Witness for C10 at a concrete configuration (gap pattern
`IMG_/4:14-16/.JPG`), concrete source/target trees, database state and
directory arguments. -/
theorem C10_counter_nonneg_witness :
    ((⟨["/d"], false, [], [], false, false, "", ⟨"IMG_", ".JPG", 4, 14, 16⟩⟩
        : Config).gapOpts.begin
      ≤ (⟨["/d"], false, [], [], false, false, "", ⟨"IMG_", ".JPG", 4, 14, 16⟩⟩
        : Config).gapOpts.stop)
    ∧ (∀ d ∈ [("/d", FSTree.dir [])], nodupKeys (listOf d.2) = true)
    ∧ ((∀ s2 ∈ lockStates Stats.init (cmpDir
          ⟨["/d"], false, [], [], false, false, "", ⟨"IMG_", ".JPG", 4, 14, 16⟩⟩ 100
          ("/s", .dir []) [] (-1)), nonnegStats s2)
       ∧ (∀ s2 ∈ lockStates Stats.init (useDB
          ⟨["/d"], false, [], [], false, false, "", ⟨"IMG_", ".JPG", 4, 14, 16⟩⟩ 100
          ("/d2", .dir []) (-1) ⟨[], []⟩).1, nonnegStats s2)
       ∧ (∀ s2 ∈ lockStates Stats.init (deleteDupes
          ⟨["/d"], false, [], [], false, false, "", ⟨"IMG_", ".JPG", 4, 14, 16⟩⟩ 100
          ("/d2", .dir []) (-1) []).1, nonnegStats s2)
       ∧ (∀ s2 ∈ lockStates Stats.init (findGaps
          ⟨["/d"], false, [], [], false, false, "", ⟨"IMG_", ".JPG", 4, 14, 16⟩⟩ 100
          [("/d", FSTree.dir [])]), nonnegStats s2)) :=
  ⟨by decide, by decide,
   C10_counter_nonneg ⟨["/d"], false, [], [], false, false, "", ⟨"IMG_", ".JPG", 4, 14, 16⟩⟩ 100
     ("/s", .dir []) [] ("/d2", .dir []) (-1) ⟨[], []⟩ [] [("/d", FSTree.dir [])]
     (by decide) (by decide)⟩

end Brahe
